import Mathlib

/-!
Verification of the MCTS engine of `MCTS.py` and the `TicTacToe` game of
`tic_tac_toe.py` (repository `Sorrow321/MCTS_TwoPlayerGame`).

Modelling conventions:
* Python floats are modelled as exact rationals (`ℚ`); the real-valued UCB
  score (which uses `np.log` / `np.sqrt`) is modelled over `ℝ`, with numpy's
  `-inf` sentinel modelled as the bottom element of `EReal`.
* The mutable node objects with parent pointers are modelled as a pure
  rose tree; a node is addressed by its path (list of child indices) from
  the root, and the backpropagation walk from the evaluated node up the
  parent chain is modelled as the equivalent update of every node on the
  root-to-evaluated-node path.
* Every `np.random.choice` draw is modelled by one value of an oracle
  stream `rng : ℕ → ℕ`; the element chosen from a non-empty list `l` at
  draw number `k` is `l[rng k % l.length]`.  Quantifying over all `rng`
  covers every sequence of draws the interpreter can produce.
* Python's unbounded `while` loops (UCB descent, rollout playout) are
  modelled with an explicit fuel parameter; exhausted fuel is an `Except`
  error distinct from the program's own exceptions, and all theorems about
  completed runs are conditioned on a successful (`Except.ok`) result.
* Python exceptions are modelled as `Except.error` with the message text
  of the raised exception.
-/

/-- In-place list update at an index: `modifyNth f i l` applies `f` to the
`i`-th element of `l` (and is the identity when `i` is out of range).
Models a Python list element assignment `l[i] = f(l[i])`. -/
def modifyNth (f : α → α) : ℕ → List α → List α
  | _, [] => []
  | 0, x :: xs => f x :: xs
  | i + 1, x :: xs => x :: modifyNth f i xs

/-- First index of the minimum of a list (`np.argmin` over a 1-d array
returns the first position attaining the minimum); auxiliary accumulator
form. `best` is the least value seen so far, `bi` its (first) index, `i`
the index of the head of the remaining list. -/
def argminAux (best : ℚ) (bi i : ℕ) : List ℚ → ℕ
  | [] => bi
  | x :: xs => if x < best then argminAux x i (i + 1) xs else argminAux best bi (i + 1) xs

/-- First index of the minimum of a list of rationals, `none` on the empty
list (where `np.argmin` raises). Models `np.array(scores).argmin()`. -/
def argminIdx : List ℚ → Option ℕ
  | [] => none
  | x :: xs => some (argminAux x 0 1 xs)

/-- The node record of `MCTS.py` (`@dataclass MCTSNode`).  The `parent`
back-reference of the Python dataclass is dropped: in this pure model a
node is identified by its path from the root, and the parent chain is
recovered from path prefixes.  `accumulated_value` and `terminal_reward`
are Python floats, modelled as `ℚ`; `player_to_move` is a Python int,
modelled as `ℤ`. -/
inductive MCTSNode (S : Type) : Type where
  | mk (state : S) (player_to_move : ℤ) (accumulated_value : ℚ) (n_visits : ℕ)
      (actions : List ℕ) (children_nodes : List (MCTSNode S)) (terminal : Bool)
      (terminal_reward : ℚ) : MCTSNode S

namespace MCTSNode

variable {S : Type}

/-- Field `state` of `MCTSNode`. -/
def state : MCTSNode S → S
  | .mk s _ _ _ _ _ _ _ => s

/-- Field `player_to_move` of `MCTSNode`. -/
def player_to_move : MCTSNode S → ℤ
  | .mk _ pl _ _ _ _ _ _ => pl

/-- Field `accumulated_value` of `MCTSNode`. -/
def accumulated_value : MCTSNode S → ℚ
  | .mk _ _ acc _ _ _ _ _ => acc

/-- Field `n_visits` of `MCTSNode`. -/
def n_visits : MCTSNode S → ℕ
  | .mk _ _ _ vis _ _ _ _ => vis

/-- Field `actions` of `MCTSNode`. -/
def actions : MCTSNode S → List ℕ
  | .mk _ _ _ _ ac _ _ _ => ac

/-- Field `children_nodes` of `MCTSNode`. -/
def children_nodes : MCTSNode S → List (MCTSNode S)
  | .mk _ _ _ _ _ ch _ _ => ch

/-- Field `terminal` of `MCTSNode`. -/
def terminal : MCTSNode S → Bool
  | .mk _ _ _ _ _ _ t _ => t

/-- Field `terminal_reward` of `MCTSNode`. -/
def terminal_reward : MCTSNode S → ℚ
  | .mk _ _ _ _ _ _ _ tr => tr

end MCTSNode

/-- Address a node of the pure tree by its path of child indices from the
root: `getNode t []` is the root itself and `getNode t (i :: p)` descends
into `t.children_nodes[i]`.  This replaces Python object identity. -/
def getNode {S : Type} : MCTSNode S → List ℕ → Option (MCTSNode S)
  | n, [] => some n
  | n, i :: p =>
    match n.children_nodes.get? i with
    | some c => getNode c p
    | none => none

/-- One backpropagation update of a single node (the body of the
`while node is not None` loop of `TwoPlayerMCTS.run`): add the evaluation
`v` to `accumulated_value` — subtract it when `player_to_move != 0` — and
increment `n_visits`. -/
def bump {S : Type} (v : ℚ) : MCTSNode S → MCTSNode S
  | .mk s pl acc vis ac ch t tr =>
    .mk s pl (if pl = 0 then acc + v else acc - v) (vis + 1) ac ch t tr

/-- Backpropagation (`MCTS.py` lines 139–147): the Python code walks from
the evaluated node up the parent chain to the root, updating every node on
the way.  In the pure tree the same set of nodes is exactly the set of
nodes on the root-to-evaluated-node path `path`, so the walk is modelled
as updating the node at every prefix of `path`. -/
def backprop {S : Type} (v : ℚ) : MCTSNode S → List ℕ → MCTSNode S
  | n, [] => bump v n
  | .mk s pl acc vis ac ch t tr, i :: p =>
    bump v (.mk s pl acc vis ac (modifyNth (fun c => backprop v c p) i ch) t tr)

/-- The two mutations of the expansion phase (`MCTS.py` lines 127–128):
`node.children_nodes = children_nodes; node.actions = actions`, applied to
the node addressed by `path`. -/
def expandAt {S : Type} (acts : List ℕ) (chs : List (MCTSNode S)) :
    MCTSNode S → List ℕ → MCTSNode S
  | .mk s pl acc vis _ _ t tr, [] => .mk s pl acc vis acts chs t tr
  | .mk s pl acc vis ac ch t tr, i :: p =>
    .mk s pl acc vis ac (modifyNth (fun c => expandAt acts chs c p) i ch) t tr

/-- The abstract game collaborator (`abstract_game.py`, class
`TwoPlayerGame`): legal-action enumeration and the transition function.
`make_transition` may raise (`TicTacToe` raises `ValueError`), modelled
as `Except`. -/
structure Game (S : Type) where
  get_possible_actions : ℤ → S → List ℕ
  make_transition : ℤ → ℕ → S → Except String (S × ℚ × Bool)

/-- Player alternation (`TwoPlayerMCTS.change_player_idx`): `1 - player_idx`. -/
def change_player_idx (player_idx : ℤ) : ℤ := 1 - player_idx

/-- Exception-propagating list map: models a Python `for` loop that builds
a list of results and lets any exception raised by `f` propagate
immediately (used for the expansion loop over `possible_actions` and the
score list comprehension of `get_best_action`). -/
def mapExcept (f : α → Except String β) : List α → Except String (List β)
  | [] => .ok []
  | a :: as =>
    match f a with
    | .error e => .error e
    | .ok b =>
      match mapExcept f as with
      | .error e => .error e
      | .ok bs => .ok (b :: bs)

/-- The selection descent of `TwoPlayerMCTS.run` (lines 103–108): starting
at the root, while the current node has children, pick a child index and
descend, flipping the player.  The index returned by
`select_child_node_ucb` (a randomized choice among the minimal-UCB-score
children, verified separately below) is modelled by the oracle draw
`rng k % len`.  Returns the path of indices taken, the reached leaf, the
player to move at the leaf and the next draw counter.  The `while` loop is
fuelled; exhausted fuel is a modelling-artifact error. -/
def selectPath {S : Type} (rng : ℕ → ℕ) :
    ℕ → MCTSNode S → ℤ → ℕ → Except String (List ℕ × MCTSNode S × ℤ × ℕ)
  | 0, _, _, _ => .error "select: fuel exhausted"
  | fuel + 1, node, player_idx, k =>
    match node.children_nodes with
    | [] => .ok ([], node, player_idx, k)
    | c0 :: cs =>
      let i := rng k % (c0 :: cs).length
      let c := (c0 :: cs).getD i c0
      match selectPath rng fuel c (change_player_idx player_idx) (k + 1) with
      | .error e => .error e
      | .ok (p, leaf, pl, kk) => .ok (i :: p, leaf, pl, kk)

/-- Child-node construction of the expansion phase (lines 119–125): given
the `(new_state, reward, done)` triple returned by `make_transition`, the
child starts with zero statistics, no children, flipped player, and
`terminal_reward = reward if done else 0.0`. -/
def mkChild {S : Type} (player_idx : ℤ) (t : S × ℚ × Bool) : MCTSNode S :=
  .mk t.1 (change_player_idx player_idx) 0 0 [] [] t.2.2 (if t.2.2 then t.2.1 else 0)

/-- One complete random playout (the `while not game_finished` loop of
`TwoPlayerMCTS.rollout`, lines 154–164): sample a uniformly random legal
action (`np.random.choice(possible_actions)`, modelled by one oracle
draw), apply the transition, flip the mover, until `done`; the terminal
transition's reward is the playout's result.  An empty legal-action list
raises the `AssertionError` of line 160.  The unbounded loop is fuelled. -/
def rolloutWhile {S : Type} (g : Game S) (rng : ℕ → ℕ) :
    ℕ → ℤ → S → ℕ → Except String (ℚ × ℕ)
  | 0, _, _, _ => .error "rollout: fuel exhausted"
  | fuel + 1, pid, state, k =>
    match g.get_possible_actions pid state with
    | [] => .error "Rollout: got no possible action in non-terminal state"
    | a0 :: rest =>
      let a := (a0 :: rest).getD (rng k % (a0 :: rest).length) a0
      match g.make_transition pid a state with
      | .error e => .error e
      | .ok (s, r, done) =>
        if done then .ok (r, k + 1)
        else rolloutWhile g rng fuel (change_player_idx pid) s (k + 1)

/-- The simulation loop of `TwoPlayerMCTS.rollout` (lines 152–165): run
`n` independent playouts from the node's state and player, accumulating
`total_reward`. -/
def rolloutFor {S : Type} (g : Game S) (rng : ℕ → ℕ) (fuel : ℕ) (node : MCTSNode S) :
    ℕ → ℚ → ℕ → Except String (ℚ × ℕ)
  | 0, total, k => .ok (total, k)
  | n + 1, total, k =>
    match rolloutWhile g rng fuel node.player_to_move node.state k with
    | .error e => .error e
    | .ok (r, k') => rolloutFor g rng fuel node n (total + r) k'

/-- `TwoPlayerMCTS.rollout` (lines 151–167): the arithmetic mean of
`n_rollout_simulations` playout rewards.  Python's
`total_reward / n_rollout_simulations` raises `ZeroDivisionError` when the
simulation count is zero. -/
def rollout {S : Type} (g : Game S) (rng : ℕ → ℕ) (fuel n_rollout_simulations : ℕ)
    (node : MCTSNode S) (k : ℕ) : Except String (ℚ × ℕ) :=
  match rolloutFor g rng fuel node n_rollout_simulations 0 k with
  | .error e => .error e
  | .ok (total, k') =>
    if n_rollout_simulations = 0 then .error "ZeroDivisionError: division by zero"
    else .ok (total / (n_rollout_simulations : ℚ), k')

/-- One select → expand → rollout → backpropagate iteration of the
`for` loop of `TwoPlayerMCTS.run` (lines 101–147), as a pure
transformation of the tree.  The expansion's
`np.random.choice(node.children_nodes)` is one oracle draw; choosing from
an empty children list raises numpy's `ValueError`.  The evaluated node is
the chosen child (or the leaf itself when the leaf is terminal), and
backpropagation updates every node on the root-to-evaluated-node path. -/
def runIter {S : Type} (g : Game S) (rng : ℕ → ℕ) (fuel n_rollout_simulations : ℕ)
    (root : MCTSNode S) (player_idx_to_move : ℤ) (k : ℕ) :
    Except String (MCTSNode S × ℕ) :=
  match selectPath rng fuel root player_idx_to_move k with
  | .error e => .error e
  | .ok (path, node, player_idx, k1) =>
    if node.terminal then
      .ok (backprop node.terminal_reward root path, k1)
    else
      let possible_actions := g.get_possible_actions player_idx node.state
      match mapExcept (fun a => g.make_transition player_idx a node.state) possible_actions with
      | .error e => .error e
      | .ok transitions =>
        match transitions.map (mkChild player_idx) with
        | [] => .error "a cannot be empty unless no samples are taken"
        | c0 :: cs =>
          let ci := rng k1 % (c0 :: cs).length
          let chosen := (c0 :: cs).getD ci c0
          let root1 := expandAt possible_actions (c0 :: cs) root path
          if chosen.terminal then
            .ok (backprop chosen.terminal_reward root1 (path ++ [ci]), k1 + 1)
          else
            match rollout g rng fuel n_rollout_simulations chosen (k1 + 1) with
            | .error e => .error e
            | .ok (value, k2) => .ok (backprop value root1 (path ++ [ci]), k2)

/-- The iteration loop of `TwoPlayerMCTS.run`
(`for _ in range(n_tree_iterations)`), threading the tree and the draw
counter. -/
def runLoop {S : Type} (g : Game S) (rng : ℕ → ℕ) (fuel n_rollout_simulations : ℕ) :
    ℕ → MCTSNode S → ℤ → ℕ → Except String (MCTSNode S × ℕ)
  | 0, root, _, k => .ok (root, k)
  | n + 1, root, player_idx_to_move, k =>
    match runIter g rng fuel n_rollout_simulations root player_idx_to_move k with
    | .error e => .error e
    | .ok (root', k') => runLoop g rng fuel n_rollout_simulations n root' player_idx_to_move k'

/-- Fresh root creation at the top of `TwoPlayerMCTS.run` (line 100):
`MCTSNode(state=state, player_to_move=player_idx_to_move)` with all other
fields at their dataclass defaults. -/
def mkRootNode {S : Type} (state : S) (player_idx_to_move : ℤ) : MCTSNode S :=
  .mk state player_idx_to_move 0 0 [] [] false 0

/-- `TwoPlayerMCTS.run` (lines 99–149): build a fresh root and run exactly
`n_tree_iterations` iterations, returning the finished tree. -/
def run {S : Type} (g : Game S) (rng : ℕ → ℕ) (fuel : ℕ) (state : S)
    (player_idx_to_move : ℤ) (n_tree_iterations n_rollout_simulations : ℕ) :
    Except String (MCTSNode S) :=
  match runLoop g rng fuel n_rollout_simulations n_tree_iterations
      (mkRootNode state player_idx_to_move) player_idx_to_move 0 with
  | .error e => .error e
  | .ok (root, _) => .ok root

/-- `TwoPlayerMCTS.get_best_action` (lines 169–184): run the search, score
every root child by `child.accumulated_value / child.n_visits` (a Python
`ZeroDivisionError` when a child was never visited), and return the root
action at the first index attaining the minimal score (`np.argmin`). -/
def get_best_action {S : Type} (g : Game S) (rng : ℕ → ℕ) (fuel : ℕ) (state : S)
    (player_idx : ℤ) (n_tree_iterations n_rollout_simulations : ℕ) :
    Except String ℕ :=
  match run g rng fuel state player_idx n_tree_iterations n_rollout_simulations with
  | .error e => .error e
  | .ok root =>
    match mapExcept
        (fun c => if c.n_visits = 0
          then Except.error "ZeroDivisionError: float division by zero"
          else Except.ok (c.accumulated_value / (c.n_visits : ℚ)))
        root.children_nodes with
    | .error e => .error e
    | .ok scores =>
      match argminIdx scores with
      | none => .error "attempt to get argmin of an empty sequence"
      | some best_idx =>
        match root.actions.get? best_idx with
        | some a => .ok a
        | none => .error "IndexError: list index out of range"

/-- `TwoPlayerMCTS.__init__` (lines 68–74): a negative
`exploration_coef` raises `ValueError`; a coefficient within numpy's
`isclose` default absolute tolerance of zero (`|coef| <= 1e-8`, since
`rtol` contributes nothing against 0) emits a warning.  The result is the
stored coefficient together with the list of emitted warnings. -/
def TwoPlayerMCTS.construct (exploration_coef : ℚ) : Except String (ℚ × List String) :=
  if exploration_coef < 0 then .error "exploration_coef must be greater than 0"
  else if |exploration_coef| ≤ 1 / 100000000 then
    .ok (exploration_coef, ["exploration_coef is set to 0"])
  else .ok (exploration_coef, [])

/-! ## The TicTacToe game (`tic_tac_toe.py`)

The board is a `3 × 3` list of lists; `0` is an empty cell, `1` is
player 0's marker, `2` is player 1's marker. -/

/-- A Tic-Tac-Toe board state: list of rows of cells. -/
abbrev TTTBoard := List (List ℤ)

namespace TicTacToe

/-- Cell read `state[row][col]` (only invoked in-bounds by the code paths
modelled here; out-of-range reads default to `0`). -/
def getCell (state : TTTBoard) (row col : ℕ) : ℤ := (state.getD row []).getD col 0

/-- Cell write `state[row][col] = v` on the deep copy made by
`make_transition`. -/
def setCell (state : TTTBoard) (row col : ℕ) (v : ℤ) : TTTBoard :=
  modifyNth (fun r => modifyNth (fun _ => v) col r) row state

/-- `TicTacToe.get_possible_actions`: the indices `row * 3 + col` of all
empty cells, scanned row-major over `range(3) × range(3)`. -/
def get_possible_actions (player_idx : ℤ) (state : TTTBoard) : List ℕ :=
  (List.range 3).flatMap fun row =>
    (List.range 3).filterMap fun col =>
      if getCell state row col = 0 then some (row * 3 + col) else none

/-- `TicTacToe._check_victory`: any full row, any full column, or either
diagonal entirely holding `player_marker`. -/
def check_victory (state : TTTBoard) (player_marker : ℤ) : Bool :=
  state.any (fun row => row.all (fun cell => cell = player_marker)) ||
  (List.range 3).any (fun col => (List.range 3).all fun row => getCell state row col = player_marker) ||
  (List.range 3).all (fun i => getCell state i i = player_marker) ||
  (List.range 3).all (fun i => getCell state i (2 - i) = player_marker)

/-- `TicTacToe._is_draw`: every cell of every row is non-empty. -/
def is_draw (state : TTTBoard) : Bool :=
  state.all fun row => row.all fun cell => cell ≠ 0

/-- `TicTacToe.make_transition` (lines 46–88): validate the action index
(range first, then occupancy), place `player_idx + 1` on a copy of the
board, and report `(new_state, reward, done)` with reward `1` when
player 0 wins, `-1` when player 1 wins, `0` otherwise. -/
def make_transition (player_idx : ℤ) (action_idx : ℕ) (state : TTTBoard) :
    Except String (TTTBoard × ℚ × Bool) :=
  let row := action_idx / 3
  let col := action_idx % 3
  if ¬ action_idx ≤ 8 then
    .error ("Invalid action index: " ++ toString action_idx ++ ". Must be between 0 and 8.")
  else if getCell state row col ≠ 0 then
    .error ("Invalid action: Cell (" ++ toString row ++ ", " ++ toString col ++ ") is already occupied.")
  else
    let new_state := setCell state row col (player_idx + 1)
    if check_victory new_state (player_idx + 1) then
      .ok (new_state, if player_idx = 0 then 1 else -1, true)
    else if is_draw new_state then
      .ok (new_state, 0, true)
    else
      .ok (new_state, 0, false)

/-- The `TicTacToe` instance packaged as a `Game`. -/
def game : Game TTTBoard := ⟨get_possible_actions, make_transition⟩

end TicTacToe

/-! ## The UCB selection rule (`TwoPlayerMCTS.select_child_node_ucb`, lines 79–97)

The float scores are modelled over `ℝ`; the `-np.inf` sentinel given to
unvisited children is the bottom element of `EReal`.  The final
`np.random.choice(best_indices)` — a uniform draw over the indices
attaining the minimal score — is modelled by its distribution, a uniform
probability mass function over that index set. -/

/-- The UCB score of one child (loop body, lines 84–93): for a visited
child, `accumulated_value / n_visits - exploration_coef * sqrt(log(parent_visits) / n_visits)`;
for an unvisited child, the `-inf` sentinel. -/
noncomputable def ucb_score {S : Type} (exploration_coef : ℝ) (parent_visits : ℕ)
    (child : MCTSNode S) : EReal :=
  if child.n_visits ≠ 0 then
    (((child.accumulated_value : ℝ) / (child.n_visits : ℝ) -
      exploration_coef * Real.sqrt (Real.log (parent_visits : ℝ) / (child.n_visits : ℝ)) : ℝ) : EReal)
  else
    ⊥

/-- The array `action_scores` (one score per child, in child order). -/
noncomputable def action_scores {S : Type} (exploration_coef : ℝ) (node : MCTSNode S) :
    List EReal :=
  node.children_nodes.map (ucb_score exploration_coef node.n_visits)

/-- Minimum of a score array (`action_scores.min()`), as a fold; on the
empty array numpy raises instead, which the caller below reproduces. -/
noncomputable def scores_min (l : List EReal) : EReal := l.foldr min ⊤

/-- The index set `np.where(action_scores == action_scores.min())[0]` of
children attaining the minimal score. -/
noncomputable def best_indices {S : Type} (exploration_coef : ℝ) (node : MCTSNode S) :
    Finset ℕ :=
  @Finset.filter ℕ
    (fun i => (action_scores exploration_coef node).getD i ⊥ =
      scores_min (action_scores exploration_coef node))
    (Classical.decPred _)
    (Finset.range (action_scores exploration_coef node).length)

/-- A fold of `min` over a non-empty list, started at `⊤`, is an element
of the list. -/
theorem foldr_min_mem {α : Type} [LinearOrder α] [OrderTop α] :
    ∀ l : List α, l ≠ [] → l.foldr min ⊤ ∈ l := by
  intro l
  induction l with
  | nil => intro h; exact absurd rfl h
  | cons x xs ih =>
    intro _
    cases hxs : xs with
    | nil =>
      subst hxs
      show min x ⊤ ∈ [x]
      rw [min_eq_left le_top]
      exact List.mem_singleton_self x
    | cons y ys =>
      subst hxs
      have hmem := ih (List.cons_ne_nil y ys)
      rcases le_total x ((y :: ys).foldr min ⊤) with hle | hle
      · show min x ((y :: ys).foldr min ⊤) ∈ _
        rw [min_eq_left hle]
        exact List.mem_cons_self x _
      · show min x ((y :: ys).foldr min ⊤) ∈ _
        rw [min_eq_right hle]
        exact List.mem_cons_of_mem x hmem
  
/-- A fold of `min` over a list, started at `⊤`, is a lower bound of the
list. -/
theorem foldr_min_le {α : Type} [LinearOrder α] [OrderTop α] {a : α} :
    ∀ l : List α, a ∈ l → l.foldr min ⊤ ≤ a := by
  intro l
  induction l with
  | nil => intro h; cases h
  | cons x xs ih =>
    intro ha
    rcases List.mem_cons.mp ha with rfl | ha
    · exact min_le_left _ _
    · exact le_trans (min_le_right _ _) (ih ha)

/-- On a node with at least one child, the minimal score is attained, so
the best-index set is non-empty. -/
theorem best_indices_nonempty {S : Type} (exploration_coef : ℝ) (node : MCTSNode S)
    (h : node.children_nodes ≠ []) :
    (best_indices exploration_coef node).Nonempty := by
  classical
  have hne : action_scores exploration_coef node ≠ [] := by
    simpa [action_scores] using h
  have hmem := foldr_min_mem _ hne
  rcases List.get_of_mem hmem with ⟨⟨i, hi⟩, hget⟩
  refine ⟨i, ?_⟩
  simp only [best_indices, Finset.mem_filter, Finset.mem_range]
  refine ⟨hi, ?_⟩
  rw [List.getD_eq_getElem?_getD, List.getElem?_eq_getElem hi]
  simpa [scores_min] using congrArg some hget

/-- `TwoPlayerMCTS.select_child_node_ucb` (lines 79–97): assert the parent
was visited, score every child, and draw uniformly at random among the
indices attaining the minimal score.  The returned value is the
distribution of `child_node_idx`. -/
noncomputable def select_child_node_ucb {S : Type} (exploration_coef : ℝ)
    (node : MCTSNode S) : Except String (PMF ℕ) :=
  if node.n_visits ≤ 0 then .error "Parent node n_visits must be > 0."
  else
    match h : node.children_nodes with
    | [] => .error "zero-size array to reduction operation minimum which has no identity"
    | c0 :: cs =>
      .ok (PMF.uniformOfFinset (best_indices exploration_coef node)
        (best_indices_nonempty exploration_coef node (by rw [h]; exact List.cons_ne_nil c0 cs)))

/-! ## Structural lemmas about the tree operations -/

@[simp] theorem MCTSNode.state_mk {S : Type} (s : S) (pl acc vis ac ch t tr) :
    (MCTSNode.mk s pl acc vis ac ch t tr).state = s := rfl

@[simp] theorem MCTSNode.player_to_move_mk {S : Type} (s : S) (pl acc vis ac ch t tr) :
    (MCTSNode.mk s pl acc vis ac ch t tr).player_to_move = pl := rfl

@[simp] theorem MCTSNode.accumulated_value_mk {S : Type} (s : S) (pl acc vis ac ch t tr) :
    (MCTSNode.mk s pl acc vis ac ch t tr).accumulated_value = acc := rfl

@[simp] theorem MCTSNode.n_visits_mk {S : Type} (s : S) (pl acc vis ac ch t tr) :
    (MCTSNode.mk s pl acc vis ac ch t tr).n_visits = vis := rfl

@[simp] theorem MCTSNode.actions_mk {S : Type} (s : S) (pl acc vis ac ch t tr) :
    (MCTSNode.mk s pl acc vis ac ch t tr).actions = ac := rfl

@[simp] theorem MCTSNode.children_nodes_mk {S : Type} (s : S) (pl acc vis ac ch t tr) :
    (MCTSNode.mk s pl acc vis ac ch t tr).children_nodes = ch := rfl

@[simp] theorem MCTSNode.terminal_mk {S : Type} (s : S) (pl acc vis ac ch t tr) :
    (MCTSNode.mk s pl acc vis ac ch t tr).terminal = t := rfl

@[simp] theorem MCTSNode.terminal_reward_mk {S : Type} (s : S) (pl acc vis ac ch t tr) :
    (MCTSNode.mk s pl acc vis ac ch t tr).terminal_reward = tr := rfl

theorem modifyNth_length (f : α → α) : ∀ (i : ℕ) (l : List α),
    (modifyNth f i l).length = l.length := by
  intro i l
  induction l generalizing i with
  | nil => cases i <;> rfl
  | cons x xs ih => cases i with
    | zero => rfl
    | succ j => simpa [modifyNth] using ih j

theorem modifyNth_get? (f : α → α) : ∀ (i j : ℕ) (l : List α),
    (modifyNth f i l).get? j = if i = j then (l.get? j).map f else l.get? j := by
  intro i j l
  induction l generalizing i j with
  | nil => cases i <;> cases j <;> simp [modifyNth]
  | cons x xs ih =>
    cases i with
    | zero => cases j with
      | zero => rfl
      | succ j' => simp [modifyNth]
    | succ i' => cases j with
      | zero => simp [modifyNth]
      | succ j' => simpa [modifyNth] using ih i' j'

@[simp] theorem getNode_nil {S : Type} (t : MCTSNode S) : getNode t [] = some t := rfl

theorem getNode_cons {S : Type} (t : MCTSNode S) (i : ℕ) (p : List ℕ) :
    getNode t (i :: p) = (t.children_nodes.get? i).bind (fun c => getNode c p) := by
  cases h : t.children_nodes.get? i <;>
    simp [getNode, ← List.get?_eq_getElem?, h]

theorem getNode_append {S : Type} : ∀ (p q : List ℕ) (t : MCTSNode S),
    getNode t (p ++ q) = (getNode t p).bind (fun n => getNode n q) := by
  intro p
  induction p with
  | nil => intro q t; simp
  | cons i p ih =>
    intro q t
    rw [List.cons_append, getNode_cons, getNode_cons]
    cases h : t.children_nodes.get? i with
    | none => rfl
    | some c => simp [ih q c]

@[simp] theorem bump_state {S : Type} (v : ℚ) (n : MCTSNode S) : (bump v n).state = n.state := by
  cases n; rfl

@[simp] theorem bump_player_to_move {S : Type} (v : ℚ) (n : MCTSNode S) :
    (bump v n).player_to_move = n.player_to_move := by
  cases n; rfl

theorem bump_accumulated_value {S : Type} (v : ℚ) (n : MCTSNode S) :
    (bump v n).accumulated_value =
      (if n.player_to_move = 0 then n.accumulated_value + v else n.accumulated_value - v) := by
  cases n; rfl

@[simp] theorem bump_n_visits {S : Type} (v : ℚ) (n : MCTSNode S) :
    (bump v n).n_visits = n.n_visits + 1 := by
  cases n; rfl

@[simp] theorem bump_actions {S : Type} (v : ℚ) (n : MCTSNode S) :
    (bump v n).actions = n.actions := by
  cases n; rfl

@[simp] theorem bump_children_nodes {S : Type} (v : ℚ) (n : MCTSNode S) :
    (bump v n).children_nodes = n.children_nodes := by
  cases n; rfl

@[simp] theorem bump_terminal {S : Type} (v : ℚ) (n : MCTSNode S) :
    (bump v n).terminal = n.terminal := by
  cases n; rfl

@[simp] theorem bump_terminal_reward {S : Type} (v : ℚ) (n : MCTSNode S) :
    (bump v n).terminal_reward = n.terminal_reward := by
  cases n; rfl

theorem backprop_nil {S : Type} (v : ℚ) (t : MCTSNode S) : backprop v t [] = bump v t := by
  cases t; rfl

theorem backprop_cons_children {S : Type} (v : ℚ) (t : MCTSNode S) (i : ℕ) (p : List ℕ) :
    (backprop v t (i :: p)).children_nodes =
      modifyNth (fun c => backprop v c p) i t.children_nodes := by
  cases t; rfl

theorem backprop_eq_bump {S : Type} (v : ℚ) (t : MCTSNode S) : ∀ (P : List ℕ),
    ∃ u : MCTSNode S, backprop v t P = bump v u ∧ u.state = t.state ∧
      u.player_to_move = t.player_to_move ∧ u.accumulated_value = t.accumulated_value ∧
      u.n_visits = t.n_visits ∧ u.actions = t.actions ∧ u.terminal = t.terminal ∧
      u.terminal_reward = t.terminal_reward ∧
      u.children_nodes.length = t.children_nodes.length := by
  intro P
  cases t with
  | mk s pl acc vis ac ch tm tr =>
    cases P with
    | nil =>
      exact ⟨.mk s pl acc vis ac ch tm tr, rfl, rfl, rfl, rfl, rfl, rfl, rfl, rfl, rfl⟩
    | cons i p =>
      exact ⟨.mk s pl acc vis ac (modifyNth (fun c => backprop v c p) i ch) tm tr,
        rfl, rfl, rfl, rfl, rfl, rfl, rfl, rfl, by simp [modifyNth_length]⟩

theorem getNode_backprop_off_path {S : Type} (v : ℚ) :
    ∀ (P q : List ℕ) (t : MCTSNode S), ¬ q <+: P →
      getNode (backprop v t P) q = getNode t q := by
  intro P
  induction P with
  | nil =>
    intro q t hq
    cases q with
    | nil => exact absurd List.nil_prefix hq
    | cons j q' =>
      rw [backprop_nil, getNode_cons, getNode_cons, bump_children_nodes]
  | cons i P' ih =>
    intro q t hq
    cases q with
    | nil => exact absurd List.nil_prefix hq
    | cons j q' =>
      rw [getNode_cons, getNode_cons, backprop_cons_children, modifyNth_get?]
      by_cases hij : i = j
      · subst hij
        have hq' : ¬ q' <+: P' := fun hcon => hq (List.cons_prefix_cons.mpr ⟨rfl, hcon⟩)
        rw [if_pos rfl]
        cases hc : t.children_nodes.get? i with
        | none => rfl
        | some c => simp [ih q' c hq']
      · rw [if_neg hij]

theorem getNode_backprop_on_path_none {S : Type} (v : ℚ) :
    ∀ (P q : List ℕ) (t : MCTSNode S), q <+: P → getNode t q = none →
      getNode (backprop v t P) q = none := by
  intro P
  induction P with
  | nil =>
    intro q t hq hn
    obtain rfl := List.prefix_nil.mp hq
    rw [getNode_nil] at hn
    cases hn
  | cons i P' ih =>
    intro q t hq hn
    cases q with
    | nil => rw [getNode_nil] at hn; cases hn
    | cons j q' =>
      obtain ⟨rfl, hq'⟩ := List.cons_prefix_cons.mp hq
      rw [getNode_cons] at hn
      rw [getNode_cons, backprop_cons_children, modifyNth_get?, if_pos rfl]
      cases hc : t.children_nodes.get? j with
      | none => rfl
      | some c =>
        rw [hc] at hn
        simp only [Option.some_bind] at hn
        simpa using ih q' c hq' hn

theorem getNode_backprop_on_path {S : Type} (v : ℚ) :
    ∀ (P q : List ℕ) (t : MCTSNode S), q <+: P → ∀ n, getNode t q = some n →
      ∃ m, getNode (backprop v t P) q = some m ∧
        m.state = n.state ∧ m.player_to_move = n.player_to_move ∧
        m.accumulated_value = (if n.player_to_move = 0 then n.accumulated_value + v
          else n.accumulated_value - v) ∧
        m.n_visits = n.n_visits + 1 ∧ m.actions = n.actions ∧
        m.terminal = n.terminal ∧ m.terminal_reward = n.terminal_reward ∧
        m.children_nodes.length = n.children_nodes.length := by
  intro P
  induction P with
  | nil =>
    intro q t hq n hn
    obtain rfl := List.prefix_nil.mp hq
    rw [getNode_nil] at hn
    injection hn with hn
    subst hn
    exact ⟨bump v t, by rw [backprop_nil, getNode_nil], by simp, by simp,
      bump_accumulated_value v t, by simp, by simp, by simp, by simp, by simp⟩
  | cons i P' ih =>
    intro q t hq n hn
    cases q with
    | nil =>
      rw [getNode_nil] at hn
      injection hn with hn
      subst hn
      obtain ⟨u, hu, hus, hupl, huacc, huvis, huac, hut, hutr, hulen⟩ :=
        backprop_eq_bump v t (i :: P')
      refine ⟨backprop v t (i :: P'), getNode_nil _, ?_, ?_, ?_, ?_, ?_, ?_, ?_, ?_⟩
      · rw [hu, bump_state, hus]
      · rw [hu, bump_player_to_move, hupl]
      · rw [hu, bump_accumulated_value, hupl, huacc]
      · rw [hu, bump_n_visits, huvis]
      · rw [hu, bump_actions, huac]
      · rw [hu, bump_terminal, hut]
      · rw [hu, bump_terminal_reward, hutr]
      · rw [hu, bump_children_nodes, hulen]
    | cons j q' =>
      obtain ⟨rfl, hq'⟩ := List.cons_prefix_cons.mp hq
      rw [getNode_cons] at hn
      cases hc : t.children_nodes.get? j with
      | none => rw [hc] at hn; cases hn
      | some c =>
        rw [hc] at hn
        simp only [Option.some_bind] at hn
        obtain ⟨m, hm, hrest⟩ := ih q' c hq' n hn
        refine ⟨m, ?_, hrest⟩
        rw [getNode_cons, backprop_cons_children, modifyNth_get?, if_pos rfl, hc]
        simpa using hm

theorem expandAt_cons_children {S : Type} (acts chs : List _) (t : MCTSNode S) (i : ℕ)
    (p : List ℕ) :
    (expandAt acts chs t (i :: p)).children_nodes =
      modifyNth (fun c => expandAt acts chs c p) i t.children_nodes := by
  cases t; rfl

theorem expandAt_cons_scalar {S : Type} (acts : List ℕ) (chs : List (MCTSNode S))
    (t : MCTSNode S) (i : ℕ) (p : List ℕ) :
    (expandAt acts chs t (i :: p)).state = t.state ∧
    (expandAt acts chs t (i :: p)).player_to_move = t.player_to_move ∧
    (expandAt acts chs t (i :: p)).accumulated_value = t.accumulated_value ∧
    (expandAt acts chs t (i :: p)).n_visits = t.n_visits ∧
    (expandAt acts chs t (i :: p)).actions = t.actions ∧
    (expandAt acts chs t (i :: p)).terminal = t.terminal ∧
    (expandAt acts chs t (i :: p)).terminal_reward = t.terminal_reward := by
  cases t
  exact ⟨rfl, rfl, rfl, rfl, rfl, rfl, rfl⟩

theorem expandAt_nil_fields {S : Type} (acts : List ℕ) (chs : List (MCTSNode S))
    (t : MCTSNode S) :
    (expandAt acts chs t []).state = t.state ∧
    (expandAt acts chs t []).player_to_move = t.player_to_move ∧
    (expandAt acts chs t []).accumulated_value = t.accumulated_value ∧
    (expandAt acts chs t []).n_visits = t.n_visits ∧
    (expandAt acts chs t []).terminal = t.terminal ∧
    (expandAt acts chs t []).terminal_reward = t.terminal_reward ∧
    (expandAt acts chs t []).actions = acts ∧
    (expandAt acts chs t []).children_nodes = chs := by
  cases t
  exact ⟨rfl, rfl, rfl, rfl, rfl, rfl, rfl, rfl⟩

theorem getNode_expandAt_at {S : Type} (acts : List ℕ) (chs : List (MCTSNode S)) :
    ∀ (P : List ℕ) (t n : MCTSNode S), getNode t P = some n →
      ∃ m, getNode (expandAt acts chs t P) P = some m ∧
        m.state = n.state ∧ m.player_to_move = n.player_to_move ∧
        m.accumulated_value = n.accumulated_value ∧ m.n_visits = n.n_visits ∧
        m.terminal = n.terminal ∧ m.terminal_reward = n.terminal_reward ∧
        m.actions = acts ∧ m.children_nodes = chs := by
  intro P
  induction P with
  | nil =>
    intro t n hn
    rw [getNode_nil] at hn
    injection hn with hn
    subst hn
    obtain ⟨h1, h2, h3, h4, h5, h6, h7, h8⟩ := expandAt_nil_fields acts chs t
    exact ⟨expandAt acts chs t [], getNode_nil _, h1, h2, h3, h4, h5, h6, h7, h8⟩
  | cons i P' ih =>
    intro t n hn
    rw [getNode_cons] at hn
    cases hc : t.children_nodes.get? i with
    | none => rw [hc] at hn; cases hn
    | some c =>
      rw [hc] at hn
      simp only [Option.some_bind] at hn
      obtain ⟨m, hm, hrest⟩ := ih c n hn
      refine ⟨m, ?_, hrest⟩
      rw [getNode_cons, expandAt_cons_children, modifyNth_get?, if_pos rfl, hc]
      simpa using hm

theorem getNode_expandAt_incomp {S : Type} (acts : List ℕ) (chs : List (MCTSNode S)) :
    ∀ (P q : List ℕ) (t : MCTSNode S), ¬ q <+: P → ¬ P <+: q →
      getNode (expandAt acts chs t P) q = getNode t q := by
  intro P
  induction P with
  | nil => intro q t _ hPq; exact absurd List.nil_prefix hPq
  | cons i P' ih =>
    intro q t hq hPq
    cases q with
    | nil => exact absurd List.nil_prefix hq
    | cons j q' =>
      rw [getNode_cons, getNode_cons, expandAt_cons_children, modifyNth_get?]
      by_cases hij : i = j
      · subst hij
        have hq' : ¬ q' <+: P' := fun hcon => hq (List.cons_prefix_cons.mpr ⟨rfl, hcon⟩)
        have hPq' : ¬ P' <+: q' := fun hcon => hPq (List.cons_prefix_cons.mpr ⟨rfl, hcon⟩)
        rw [if_pos rfl]
        cases hc : t.children_nodes.get? i with
        | none => rfl
        | some c => simp [ih q' c hq' hPq']
      · rw [if_neg hij]

theorem getNode_expandAt_above_path {S : Type} (acts : List ℕ) (chs : List (MCTSNode S)) :
    ∀ (P q : List ℕ) (t : MCTSNode S), q <+: P → q ≠ P → ∀ n, getNode t q = some n →
      ∃ m, getNode (expandAt acts chs t P) q = some m ∧
        m.state = n.state ∧ m.player_to_move = n.player_to_move ∧
        m.accumulated_value = n.accumulated_value ∧ m.n_visits = n.n_visits ∧
        m.actions = n.actions ∧ m.terminal = n.terminal ∧
        m.terminal_reward = n.terminal_reward ∧
        m.children_nodes.length = n.children_nodes.length := by
  intro P
  induction P with
  | nil =>
    intro q t hq hne n _
    exact absurd (List.prefix_nil.mp hq) hne
  | cons i P' ih =>
    intro q t hq hne n hn
    cases q with
    | nil =>
      rw [getNode_nil] at hn
      injection hn with hn
      subst hn
      obtain ⟨h1, h2, h3, h4, h5, h6, h7⟩ := expandAt_cons_scalar acts chs t i P'
      refine ⟨expandAt acts chs t (i :: P'), getNode_nil _, h1, h2, h3, h4, h5, h6, h7, ?_⟩
      rw [expandAt_cons_children, modifyNth_length]
    | cons j q' =>
      obtain ⟨rfl, hq'⟩ := List.cons_prefix_cons.mp hq
      have hne' : q' ≠ P' := fun hcon => hne (by rw [hcon])
      rw [getNode_cons] at hn
      cases hc : t.children_nodes.get? j with
      | none => rw [hc] at hn; cases hn
      | some c =>
        rw [hc] at hn
        simp only [Option.some_bind] at hn
        obtain ⟨m, hm, hrest⟩ := ih q' c hq' hne' n hn
        refine ⟨m, ?_, hrest⟩
        rw [getNode_cons, expandAt_cons_children, modifyNth_get?, if_pos rfl, hc]
        simpa using hm

theorem getNode_isSome_of_path_le {S : Type} {t : MCTSNode S} {q P : List ℕ}
    (hq : q <+: P) (h : (getNode t P).isSome) : (getNode t q).isSome := by
  obtain ⟨r, rfl⟩ := hq
  rw [getNode_append] at h
  cases hg : getNode t q with
  | none => rw [hg] at h; cases h
  | some n => rfl

theorem backprop_root_n_visits {S : Type} (v : ℚ) (t : MCTSNode S) (P : List ℕ) :
    (backprop v t P).n_visits = t.n_visits + 1 := by
  obtain ⟨u, hu, _, _, _, huvis, _, _, _, _⟩ := backprop_eq_bump v t P
  rw [hu, bump_n_visits, huvis]

theorem backprop_root_terminal {S : Type} (v : ℚ) (t : MCTSNode S) (P : List ℕ) :
    (backprop v t P).terminal = t.terminal := by
  obtain ⟨u, hu, _, _, _, _, _, hut, _, _⟩ := backprop_eq_bump v t P
  rw [hu, bump_terminal, hut]

theorem expandAt_root_n_visits {S : Type} (acts : List ℕ) (chs : List (MCTSNode S))
    (t : MCTSNode S) (P : List ℕ) : (expandAt acts chs t P).n_visits = t.n_visits := by
  cases P with
  | nil => exact (expandAt_nil_fields acts chs t).2.2.2.1
  | cons i p => exact (expandAt_cons_scalar acts chs t i p).2.2.2.1

theorem expandAt_root_terminal {S : Type} (acts : List ℕ) (chs : List (MCTSNode S))
    (t : MCTSNode S) (P : List ℕ) : (expandAt acts chs t P).terminal = t.terminal := by
  cases P with
  | nil => exact (expandAt_nil_fields acts chs t).2.2.2.2.1
  | cons i p => exact (expandAt_cons_scalar acts chs t i p).2.2.2.2.2.1

theorem getNode_mkRootNode {S : Type} (s : S) (pid : ℤ) (q : List ℕ) :
    getNode (mkRootNode s pid) q = if q = [] then some (mkRootNode s pid) else none := by
  cases q with
  | nil => rfl
  | cons j q' => rw [getNode_cons]; rfl

/-- The `visit_count(node) <= visit_count(parent)` invariant of §8 of the
spec, phrased over path addresses: whenever `q` addresses a node and
`q ++ [j]` one of its children, the child's `n_visits` is at most the
parent's. -/
def VisitMono {S : Type} (t : MCTSNode S) : Prop :=
  ∀ (q : List ℕ) (j : ℕ) (n c : MCTSNode S), getNode t q = some n →
    getNode t (q ++ [j]) = some c → c.n_visits ≤ n.n_visits

/-- Structural signature of a node: its `terminal` flag and the lengths of
its `actions` and `children_nodes` lists.  Backpropagation and expansion
away from a node change nothing a signature predicate can see. -/
def NodeSig {S : Type} (n : MCTSNode S) : Bool × ℕ × ℕ :=
  (n.terminal, n.actions.length, n.children_nodes.length)

/-- A predicate on node signatures holding at every node of the tree. -/
def AllNodesSig {S : Type} (p : Bool × ℕ × ℕ → Prop) (t : MCTSNode S) : Prop :=
  ∀ (q : List ℕ) (n : MCTSNode S), getNode t q = some n → p (NodeSig n)

/-- The structural invariant maintained by `run`: a terminal node has no
children (it is never expanded), and `actions` and `children_nodes` always
have equal lengths. -/
def StructP (sig : Bool × ℕ × ℕ) : Prop :=
  (sig.1 = true → sig.2.2 = 0) ∧ sig.2.1 = sig.2.2

/-- Sum of the visit counts of a node's immediate children. -/
def childVisitSum {S : Type} (t : MCTSNode S) : ℕ :=
  (t.children_nodes.map MCTSNode.n_visits).sum

theorem visitMono_backprop {S : Type} (v : ℚ) (P : List ℕ) (t : MCTSNode S)
    (h : VisitMono t) : VisitMono (backprop v t P) := by
  intro q j n c hn hc
  by_cases hqj : (q ++ [j]) <+: P
  · have hq : q <+: P := (List.prefix_append q [j]).trans hqj
    cases h0 : getNode t q with
    | none => rw [getNode_backprop_on_path_none v P q t hq h0] at hn; cases hn
    | some n0 =>
      cases h1 : getNode t (q ++ [j]) with
      | none => rw [getNode_backprop_on_path_none v P _ t hqj h1] at hc; cases hc
      | some c0 =>
        obtain ⟨m, hm, _, _, _, hmvis, _, _, _, _⟩ := getNode_backprop_on_path v P q t hq n0 h0
        obtain ⟨m', hm', _, _, _, hmvis', _, _, _, _⟩ :=
          getNode_backprop_on_path v P _ t hqj c0 h1
        rw [hm] at hn; injection hn with hn; subst hn
        rw [hm'] at hc; injection hc with hc; subst hc
        rw [hmvis, hmvis']
        exact Nat.succ_le_succ (h q j n0 c0 h0 h1)
  · by_cases hq : q <+: P
    · rw [getNode_backprop_off_path v P _ t hqj] at hc
      cases h0 : getNode t q with
      | none => rw [getNode_backprop_on_path_none v P q t hq h0] at hn; cases hn
      | some n0 =>
        obtain ⟨m, hm, _, _, _, hmvis, _, _, _, _⟩ := getNode_backprop_on_path v P q t hq n0 h0
        rw [hm] at hn; injection hn with hn; subst hn
        rw [hmvis]
        exact le_trans (h q j n0 c h0 hc) (Nat.le_succ _)
    · rw [getNode_backprop_off_path v P q t hq] at hn
      rw [getNode_backprop_off_path v P _ t hqj] at hc
      exact h q j n c hn hc

theorem visitMono_expandAt {S : Type} (acts : List ℕ) (chs : List (MCTSNode S)) (P : List ℕ)
    (t leaf : MCTSNode S) (hP : getNode t P = some leaf)
    (hvis : ∀ c ∈ chs, c.n_visits = 0) (hch : ∀ c ∈ chs, c.children_nodes = [])
    (h : VisitMono t) : VisitMono (expandAt acts chs t P) := by
  obtain ⟨m, hm, _, _, _, hmvis, _, _, _, hmch⟩ := getNode_expandAt_at acts chs P t leaf hP
  have hbelow : ∀ x, getNode (expandAt acts chs t P) (P ++ x) = getNode m x := by
    intro x; rw [getNode_append, hm, Option.some_bind]
  intro q j n c hn hc
  by_cases hPq : P <+: q
  · obtain ⟨r, rfl⟩ := hPq
    cases r with
    | nil =>
      rw [List.append_nil] at hn hc
      rw [hm] at hn
      injection hn with hn
      subst hn
      rw [hbelow [j], getNode_cons, hmch] at hc
      cases hcj : chs.get? j with
      | none => rw [hcj] at hc; cases hc
      | some cj =>
        rw [hcj] at hc
        simp only [Option.some_bind, getNode_nil] at hc
        injection hc with hc
        subst hc
        rw [hvis cj (List.get?_mem hcj)]
        exact Nat.zero_le _
    | cons r0 rs =>
      rw [hbelow, getNode_cons, hmch] at hn
      cases hc0 : chs.get? r0 with
      | none => rw [hc0] at hn; cases hn
      | some c0 =>
        rw [hc0] at hn
        simp only [Option.some_bind] at hn
        cases rs with
        | nil =>
          rw [getNode_nil] at hn
          injection hn with hn
          subst hn
          rw [List.append_assoc, hbelow] at hc
          simp only [List.cons_append, List.nil_append] at hc
          rw [getNode_cons, hmch, hc0] at hc
          simp only [Option.some_bind] at hc
          rw [getNode_cons, hch c0 (List.get?_mem hc0)] at hc
          simp at hc
        | cons r1 rs' =>
          rw [getNode_cons, hch c0 (List.get?_mem hc0)] at hn
          cases hn
  · by_cases hq : q <+: P
    · have hqP : q ≠ P := by
        intro hcon
        subst hcon
        exact hPq (List.prefix_refl _)
      cases h0 : getNode t q with
      | none =>
        have hs := getNode_isSome_of_path_le hq (t := t) (by rw [hP]; rfl)
        rw [h0] at hs; cases hs
      | some n0 =>
        obtain ⟨m0, hm0, _, _, _, hvis0, _, _, _, _⟩ :=
          getNode_expandAt_above_path acts chs P q t hq hqP n0 h0
        rw [hm0] at hn; injection hn with hn; subst hn
        by_cases hqj : (q ++ [j]) <+: P
        · by_cases hqjP : q ++ [j] = P
          · rw [hqjP, hm] at hc
            injection hc with hc
            subst hc
            rw [hvis0, hmvis]
            exact h q j n0 leaf h0 (by rw [hqjP]; exact hP)
          · cases h1 : getNode t (q ++ [j]) with
            | none =>
              have hs := getNode_isSome_of_path_le hqj (t := t) (by rw [hP]; rfl)
              rw [h1] at hs; cases hs
            | some c1 =>
              obtain ⟨m1, hm1, _, _, _, hvis1, _, _, _, _⟩ :=
                getNode_expandAt_above_path acts chs P _ t hqj hqjP c1 h1
              rw [hm1] at hc; injection hc with hc; subst hc
              rw [hvis0, hvis1]
              exact h q j n0 c1 h0 h1
        · have hPqj : ¬ P <+: q ++ [j] := by
            intro hcon
            rcases eq_or_ne P (q ++ [j]) with hPe | hPe
            · exact hqj (hPe ▸ List.prefix_refl _)
            · have hlen : P.length ≤ q.length := by
                have h1 := hcon.length_le
                rw [List.length_append] at h1
                have h2 : P.length ≠ q.length + 1 := by
                  intro hcon2
                  exact hPe (hcon.eq_of_length (by rw [hcon2, List.length_append]; rfl))
                simp only [List.length_cons, List.length_nil] at h1
                omega
              have hPq2 : P <+: q :=
                List.prefix_of_prefix_length_le hcon (List.prefix_append q [j]) hlen
              exact hqP (hq.eq_of_length (Nat.le_antisymm hq.length_le hPq2.length_le))
          rw [getNode_expandAt_incomp acts chs P _ t hqj hPqj] at hc
          rw [hvis0]
          exact h q j n0 c h0 hc
    · rw [getNode_expandAt_incomp acts chs P q t hq hPq] at hn
      by_cases hqj : (q ++ [j]) <+: P
      · exact absurd ((List.prefix_append q [j]).trans hqj) hq
      · by_cases hPqj : P <+: q ++ [j]
        · have hPe : P = q ++ [j] := by
            rcases eq_or_ne P (q ++ [j]) with hPe | hPe
            · exact hPe
            · have hlen : P.length ≤ q.length := by
                have h1 := hPqj.length_le
                rw [List.length_append] at h1
                have h2 : P.length ≠ q.length + 1 := by
                  intro hcon2
                  exact hPe (hPqj.eq_of_length (by rw [hcon2, List.length_append]; rfl))
                simp only [List.length_cons, List.length_nil] at h1
                omega
              exact absurd (List.prefix_of_prefix_length_le hPqj (List.prefix_append q [j]) hlen) hPq
          rw [← hPe, hm] at hc
          injection hc with hc
          subst hc
          rw [hmvis]
          exact h q j n leaf hn (by rw [hPe] at hP; exact hP)
        · rw [getNode_expandAt_incomp acts chs P _ t hqj hPqj] at hc
          exact h q j n c hn hc

theorem allNodesSig_backprop {S : Type} (p : Bool × ℕ × ℕ → Prop) (v : ℚ) (P : List ℕ)
    (t : MCTSNode S) (h : AllNodesSig p t) : AllNodesSig p (backprop v t P) := by
  intro q n hn
  by_cases hq : q <+: P
  · cases h0 : getNode t q with
    | none => rw [getNode_backprop_on_path_none v P q t hq h0] at hn; cases hn
    | some n0 =>
      obtain ⟨m, hm, _, _, _, _, hmac, hmt, _, hmlen⟩ := getNode_backprop_on_path v P q t hq n0 h0
      rw [hm] at hn; injection hn with hn; subst hn
      have hsig : NodeSig m = NodeSig n0 := by
        simp [NodeSig, hmac, hmt, hmlen]
      rw [hsig]
      exact h q n0 h0
  · rw [getNode_backprop_off_path v P q t hq] at hn
    exact h q n hn

theorem allNodesSig_expandAt {S : Type} (p : Bool × ℕ × ℕ → Prop) (acts : List ℕ)
    (chs : List (MCTSNode S)) (P : List ℕ) (t leaf : MCTSNode S)
    (hP : getNode t P = some leaf)
    (hch : ∀ c ∈ chs, c.children_nodes = [])
    (hpc : ∀ c ∈ chs, p (NodeSig c))
    (hnew : p (leaf.terminal, acts.length, chs.length))
    (h : AllNodesSig p t) : AllNodesSig p (expandAt acts chs t P) := by
  obtain ⟨m, hm, _, _, _, _, hmterm, _, hmacts, hmch⟩ := getNode_expandAt_at acts chs P t leaf hP
  have hbelow : ∀ x, getNode (expandAt acts chs t P) (P ++ x) = getNode m x := by
    intro x; rw [getNode_append, hm, Option.some_bind]
  intro q n hn
  by_cases hPq : P <+: q
  · obtain ⟨r, rfl⟩ := hPq
    cases r with
    | nil =>
      rw [List.append_nil] at hn
      rw [hm] at hn; injection hn with hn; subst hn
      have hsig : NodeSig m = (leaf.terminal, acts.length, chs.length) := by
        simp [NodeSig, hmterm, hmacts, hmch]
      rw [hsig]
      exact hnew
    | cons r0 rs =>
      rw [hbelow, getNode_cons, hmch] at hn
      cases hc0 : chs.get? r0 with
      | none => rw [hc0] at hn; cases hn
      | some c0 =>
        rw [hc0] at hn
        simp only [Option.some_bind] at hn
        cases rs with
        | nil =>
          rw [getNode_nil] at hn
          injection hn with hn
          subst hn
          exact hpc c0 (List.get?_mem hc0)
        | cons r1 rs' =>
          rw [getNode_cons, hch c0 (List.get?_mem hc0)] at hn
          cases hn
  · by_cases hq : q <+: P
    · have hqP : q ≠ P := by
        intro hcon
        subst hcon
        exact hPq (List.prefix_refl _)
      cases h0 : getNode t q with
      | none =>
        have hs := getNode_isSome_of_path_le hq (t := t) (by rw [hP]; rfl)
        rw [h0] at hs; cases hs
      | some n0 =>
        obtain ⟨m0, hm0, _, _, _, _, hacts0, hterm0, _, hlen0⟩ :=
          getNode_expandAt_above_path acts chs P q t hq hqP n0 h0
        rw [hm0] at hn; injection hn with hn; subst hn
        have hsig : NodeSig m0 = NodeSig n0 := by
          simp [NodeSig, hacts0, hterm0, hlen0]
        rw [hsig]
        exact h q n0 h0
    · rw [getNode_expandAt_incomp acts chs P q t hq hPq] at hn
      exact h q n hn

theorem sum_map_modifyNth {α : Type} (m : α → ℕ) (f : α → α) :
    ∀ (l : List α) (i : ℕ) (h : i < l.length),
      ((modifyNth f i l).map m).sum + m (l.get ⟨i, h⟩) =
        (l.map m).sum + m (f (l.get ⟨i, h⟩)) := by
  intro l
  induction l with
  | nil => intro i h; cases h
  | cons x xs ih =>
    intro i h
    cases i with
    | zero =>
      show (m (f x) + (xs.map m).sum) + m x = (m x + (xs.map m).sum) + m (f x)
      omega
    | succ i' =>
      have h' : i' < xs.length := Nat.lt_of_succ_lt_succ h
      have := ih i' h'
      show (m x + ((modifyNth f i' xs).map m).sum) + m (xs.get ⟨i', h'⟩) =
        (m x + (xs.map m).sum) + m (f (xs.get ⟨i', h'⟩))
      omega

theorem mapExcept_ok_length (f : α → Except String β) :
    ∀ (l : List α) (bs : List β), mapExcept f l = .ok bs → bs.length = l.length := by
  intro l
  induction l with
  | nil =>
    intro bs h
    simp only [mapExcept] at h
    injection h with h
    subst h
    rfl
  | cons a as ih =>
    intro bs h
    simp only [mapExcept] at h
    cases hf : f a with
    | error e => rw [hf] at h; cases h
    | ok b =>
      rw [hf] at h
      cases hrec : mapExcept f as with
      | error e => rw [hrec] at h; cases h
      | ok bs' =>
        rw [hrec] at h
        injection h with h
        subst h
        simp [ih bs' hrec]

@[simp] theorem mkChild_n_visits {S : Type} (pid : ℤ) (t : S × ℚ × Bool) :
    (mkChild pid t).n_visits = 0 := rfl

@[simp] theorem mkChild_children_nodes {S : Type} (pid : ℤ) (t : S × ℚ × Bool) :
    (mkChild pid t).children_nodes = [] := rfl

@[simp] theorem mkChild_actions {S : Type} (pid : ℤ) (t : S × ℚ × Bool) :
    (mkChild pid t).actions = [] := rfl

theorem selectPath_ok {S : Type} (rng : ℕ → ℕ) :
    ∀ (fuel : ℕ) (t : MCTSNode S) (pid : ℤ) (k : ℕ) (path : List ℕ) (leaf : MCTSNode S)
      (pid' : ℤ) (k' : ℕ),
      selectPath rng fuel t pid k = .ok (path, leaf, pid', k') →
      getNode t path = some leaf ∧ leaf.children_nodes = [] := by
  intro fuel
  induction fuel with
  | zero => intro t pid k path leaf pid' k' h; cases h
  | succ fuel ih =>
    intro t pid k path leaf pid' k' h
    cases t with
    | mk s pl acc vis ac ch tm tr =>
      cases ch with
      | nil =>
        simp only [selectPath, MCTSNode.children_nodes_mk] at h
        injection h with h
        injection h with h1 h
        injection h with h2 h
        subst h1
        subst h2
        exact ⟨rfl, rfl⟩
      | cons c0 cs =>
        simp only [selectPath, MCTSNode.children_nodes_mk] at h
        cases hrec : selectPath rng fuel
            ((c0 :: cs).getD (rng k % (c0 :: cs).length) c0)
            (change_player_idx pid) (k + 1) with
        | error e => rw [hrec] at h; cases h
        | ok r =>
          obtain ⟨p, l, pl2, kk⟩ := r
          rw [hrec] at h
          injection h with h
          injection h with h1 h
          injection h with h2 h
          injection h with h3 h4
          subst h1
          subst h2
          obtain ⟨hg, hleaf⟩ := ih _ _ _ _ _ _ _ hrec
          refine ⟨?_, hleaf⟩
          rw [getNode_cons, MCTSNode.children_nodes_mk]
          have hi : rng k % (c0 :: cs).length < (c0 :: cs).length :=
            Nat.mod_lt _ (by simp)
          have hsome : (c0 :: cs).get? (rng k % (c0 :: cs).length) =
              some ((c0 :: cs).getD (rng k % (c0 :: cs).length) c0) := by
            rw [List.get?_eq_getElem?, List.getElem?_eq_getElem hi,
              List.getD_eq_getElem?_getD, List.getElem?_eq_getElem hi]
            rfl
          rw [hsome, Option.some_bind]
          exact hg

theorem list_sum_map_zero {α : Type} (m : α → ℕ) (l : List α) (h : ∀ c ∈ l, m c = 0) :
    (l.map m).sum = 0 := by
  induction l with
  | nil => rfl
  | cons x xs ih =>
    show m x + (xs.map m).sum = 0
    rw [h x (List.mem_cons_self x xs), ih (fun c hc => h c (List.mem_cons_of_mem x hc))]

/-- Facts about one iteration outcome of the form
`backprop w t path` (the terminal-leaf branch): root statistics, the
invariants, and the root-children visit sum. -/
theorem backprop_iteration_facts {S : Type} (w : ℚ) (t leaf : MCTSNode S) (path : List ℕ)
    (hget : getNode t path = some leaf) :
    (backprop w t path).n_visits = t.n_visits + 1 ∧
    (VisitMono t → VisitMono (backprop w t path)) ∧
    (AllNodesSig StructP t → AllNodesSig StructP (backprop w t path)) ∧
    (backprop w t path).terminal = t.terminal ∧
    (t.terminal = false → leaf.terminal = true → childVisitSum t = t.n_visits →
      childVisitSum (backprop w t path) = t.n_visits + 1) := by
  refine ⟨backprop_root_n_visits w t path, visitMono_backprop w path t,
    allNodesSig_backprop StructP w path t, backprop_root_terminal w t path, ?_⟩
  intro hrt hlt hsum
  cases path with
  | nil =>
    rw [getNode_nil] at hget
    injection hget with hget
    subst hget
    rw [hlt] at hrt
    cases hrt
  | cons i rest =>
    rw [getNode_cons] at hget
    cases hc : t.children_nodes.get? i with
    | none => rw [hc] at hget; cases hget
    | some c =>
      obtain ⟨hi, hgeti⟩ := List.get?_eq_some.mp hc
      have hkey := sum_map_modifyNth MCTSNode.n_visits (fun c => backprop w c rest)
        t.children_nodes i hi
      rw [hgeti, backprop_root_n_visits] at hkey
      have : childVisitSum (backprop w t (i :: rest)) =
          ((modifyNth (fun c => backprop w c rest) i t.children_nodes).map
            MCTSNode.n_visits).sum := by
        rw [childVisitSum, backprop_cons_children]
      rw [this]
      rw [childVisitSum] at hsum
      omega

/-- Facts about one iteration outcome of the form
`backprop w (expandAt acts chs t path) (path ++ [ci])` (the expansion
branch, whether the chosen child is rolled out or terminal). -/
theorem expand_iteration_facts {S : Type} (w : ℚ) (acts : List ℕ) (chs : List (MCTSNode S))
    (t leaf : MCTSNode S) (path : List ℕ) (ci : ℕ)
    (hget : getNode t path = some leaf) (hleafch : leaf.children_nodes = [])
    (hterm : leaf.terminal = false)
    (hchvis : ∀ c ∈ chs, c.n_visits = 0) (hchch : ∀ c ∈ chs, c.children_nodes = [])
    (hchsig : ∀ c ∈ chs, StructP (NodeSig c))
    (hci : ci < chs.length) (hlen : acts.length = chs.length) :
    (backprop w (expandAt acts chs t path) (path ++ [ci])).n_visits = t.n_visits + 1 ∧
    (VisitMono t → VisitMono (backprop w (expandAt acts chs t path) (path ++ [ci]))) ∧
    (AllNodesSig StructP t →
      AllNodesSig StructP (backprop w (expandAt acts chs t path) (path ++ [ci]))) ∧
    (backprop w (expandAt acts chs t path) (path ++ [ci])).terminal = t.terminal ∧
    (t.terminal = false → childVisitSum t = t.n_visits →
      childVisitSum (backprop w (expandAt acts chs t path) (path ++ [ci])) =
        t.n_visits + 1) := by
  refine ⟨?_, ?_, ?_, ?_, ?_⟩
  · rw [backprop_root_n_visits, expandAt_root_n_visits]
  · intro hm
    exact visitMono_backprop w _ _ (visitMono_expandAt acts chs path t leaf hget hchvis hchch hm)
  · intro hs
    refine allNodesSig_backprop StructP w _ _ ?_
    refine allNodesSig_expandAt StructP acts chs path t leaf hget hchch hchsig ?_ hs
    constructor
    · intro hcon
      rw [hterm] at hcon
      cases hcon
    · exact hlen
  · rw [backprop_root_terminal, expandAt_root_terminal]
  · intro _ hsum
    cases path with
    | nil =>
      rw [getNode_nil] at hget
      injection hget with hget
      subst hget
      rw [childVisitSum, hleafch] at hsum
      simp only [List.map_nil, List.sum_nil] at hsum
      have hch1 : (expandAt acts chs t []).children_nodes = chs :=
        (expandAt_nil_fields acts chs t).2.2.2.2.2.2.2
      have hsum0 : (chs.map MCTSNode.n_visits).sum = 0 :=
        list_sum_map_zero MCTSNode.n_visits chs hchvis
      have hci' : ci < (expandAt acts chs t []).children_nodes.length := by
        rw [hch1]; exact hci
      have hkey := sum_map_modifyNth MCTSNode.n_visits (fun c => backprop w c [])
        (expandAt acts chs t []).children_nodes ci hci'
      rw [backprop_root_n_visits] at hkey
      have hchv : childVisitSum (backprop w (expandAt acts chs t []) ([] ++ [ci])) =
          ((modifyNth (fun c => backprop w c []) ci
            (expandAt acts chs t []).children_nodes).map MCTSNode.n_visits).sum := by
        rw [List.nil_append, childVisitSum, backprop_cons_children]
      rw [hchv, ← hsum]
      have hsumch : ((expandAt acts chs t []).children_nodes.map MCTSNode.n_visits).sum = 0 := by
        rw [hch1]; exact hsum0
      omega
    | cons i rest =>
      rw [getNode_cons] at hget
      cases hc : t.children_nodes.get? i with
      | none => rw [hc] at hget; cases hget
      | some c =>
        obtain ⟨hi, hgeti⟩ := List.get?_eq_some.mp hc
        -- step 1: expansion leaves the root-children visit sum unchanged
        have hkey1 := sum_map_modifyNth MCTSNode.n_visits (fun c => expandAt acts chs c rest)
          t.children_nodes i hi
        rw [expandAt_root_n_visits] at hkey1
        -- step 2: backprop over i :: (rest ++ [ci]) bumps exactly child i
        have hch2 : (expandAt acts chs t (i :: rest)).children_nodes =
            modifyNth (fun c => expandAt acts chs c rest) i t.children_nodes :=
          expandAt_cons_children acts chs t i rest
        have hi2 : i < (expandAt acts chs t (i :: rest)).children_nodes.length := by
          rw [hch2, modifyNth_length]; exact hi
        have hkey2 := sum_map_modifyNth MCTSNode.n_visits
          (fun c => backprop w c (rest ++ [ci]))
          (expandAt acts chs t (i :: rest)).children_nodes i hi2
        rw [backprop_root_n_visits] at hkey2
        have hchv : childVisitSum
            (backprop w (expandAt acts chs t (i :: rest)) ((i :: rest) ++ [ci])) =
            ((modifyNth (fun c => backprop w c (rest ++ [ci])) i
              (expandAt acts chs t (i :: rest)).children_nodes).map MCTSNode.n_visits).sum := by
          rw [List.cons_append, childVisitSum, backprop_cons_children]
        rw [hchv]
        rw [childVisitSum] at hsum
        have hsum1 : ((expandAt acts chs t (i :: rest)).children_nodes.map
            MCTSNode.n_visits).sum + MCTSNode.n_visits (t.children_nodes.get ⟨i, hi⟩) =
            (t.children_nodes.map MCTSNode.n_visits).sum +
              MCTSNode.n_visits (t.children_nodes.get ⟨i, hi⟩) := by
          rw [hch2]
          omega
        omega

theorem runIter_ok {S : Type} (g : Game S) (rng : ℕ → ℕ) (fuel nroll : ℕ) (t : MCTSNode S)
    (pid : ℤ) (k : ℕ) (t' : MCTSNode S) (k' : ℕ)
    (h : runIter g rng fuel nroll t pid k = .ok (t', k')) :
    t'.n_visits = t.n_visits + 1 ∧
    (VisitMono t → VisitMono t') ∧
    (AllNodesSig StructP t → AllNodesSig StructP t') ∧
    t'.terminal = t.terminal ∧
    (t.terminal = false → childVisitSum t = t.n_visits →
      childVisitSum t' = t.n_visits + 1) := by
  simp only [runIter] at h
  cases hsel : selectPath rng fuel t pid k with
  | error e => rw [hsel] at h; cases h
  | ok r =>
    obtain ⟨path, leaf, pid1, k1⟩ := r
    simp only [hsel] at h
    obtain ⟨hget, hleafch⟩ := selectPath_ok rng fuel t pid k path leaf pid1 k1 hsel
    by_cases hterm : leaf.terminal = true
    · rw [if_pos hterm] at h
      injection h with h
      injection h with h1 h2
      subst h1
      obtain ⟨f1, f2, f3, f4, f5⟩ := backprop_iteration_facts leaf.terminal_reward t leaf path hget
      exact ⟨f1, f2, f3, f4, fun hrt hsum => f5 hrt hterm hsum⟩
    · have hterm' : leaf.terminal = false := by
        revert hterm; cases leaf.terminal <;> simp
      rw [if_neg hterm] at h
      cases hmapE : mapExcept (fun a => g.make_transition pid1 a leaf.state)
          (g.get_possible_actions pid1 leaf.state) with
      | error e => simp only [hmapE] at h; cases h
      | ok transitions =>
        simp only [hmapE] at h
        cases hmap : transitions.map (mkChild pid1) with
        | nil => simp only [hmap] at h; cases h
        | cons c0 cs =>
          simp only [hmap] at h
          have hchvis : ∀ c ∈ c0 :: cs, c.n_visits = 0 := by
            intro c hc
            rw [← hmap] at hc
            obtain ⟨tr, _, rfl⟩ := List.mem_map.mp hc
            rfl
          have hchch : ∀ c ∈ c0 :: cs, c.children_nodes = [] := by
            intro c hc
            rw [← hmap] at hc
            obtain ⟨tr, _, rfl⟩ := List.mem_map.mp hc
            rfl
          have hchsig : ∀ c ∈ c0 :: cs, StructP (NodeSig c) := by
            intro c hc
            rw [← hmap] at hc
            obtain ⟨tr, _, rfl⟩ := List.mem_map.mp hc
            exact ⟨fun _ => rfl, rfl⟩
          have hlen : (g.get_possible_actions pid1 leaf.state).length = (c0 :: cs).length := by
            rw [← hmap, List.length_map, mapExcept_ok_length _ _ _ hmapE]
          have hci : rng k1 % (c0 :: cs).length < (c0 :: cs).length :=
            Nat.mod_lt _ (by simp)
          by_cases hct : ((c0 :: cs).getD (rng k1 % (c0 :: cs).length) c0).terminal = true
          · rw [if_pos hct] at h
            injection h with h
            injection h with h1 h2
            subst h1
            obtain ⟨f1, f2, f3, f4, f5⟩ := expand_iteration_facts _ _ _ t leaf path _
              hget hleafch hterm' hchvis hchch hchsig hci hlen
            exact ⟨f1, f2, f3, f4, f5⟩
          · rw [if_neg hct] at h
            cases hroll : rollout g rng fuel nroll
                ((c0 :: cs).getD (rng k1 % (c0 :: cs).length) c0) (k1 + 1) with
            | error e => simp only [hroll] at h; cases h
            | ok vr =>
              obtain ⟨value, k2⟩ := vr
              simp only [hroll] at h
              injection h with h
              injection h with h1 h2
              subst h1
              obtain ⟨f1, f2, f3, f4, f5⟩ := expand_iteration_facts value _ _ t leaf path _
                hget hleafch hterm' hchvis hchch hchsig hci hlen
              exact ⟨f1, f2, f3, f4, f5⟩

theorem runLoop_ok {S : Type} (g : Game S) (rng : ℕ → ℕ) (fuel nroll : ℕ) :
    ∀ (n : ℕ) (t : MCTSNode S) (pid : ℤ) (k : ℕ) (t' : MCTSNode S) (k' : ℕ),
      runLoop g rng fuel nroll n t pid k = .ok (t', k') →
      VisitMono t → AllNodesSig StructP t → t.terminal = false →
      childVisitSum t = t.n_visits →
      t'.n_visits = t.n_visits + n ∧ VisitMono t' ∧ AllNodesSig StructP t' ∧
        t'.terminal = false ∧ childVisitSum t' = t'.n_visits := by
  intro n
  induction n with
  | zero =>
    intro t pid k t' k' h hm hs ht hsum
    simp only [runLoop] at h
    injection h with h
    injection h with h1 h2
    subst h1
    exact ⟨rfl, hm, hs, ht, hsum⟩
  | succ n ih =>
    intro t pid k t' k' h hm hs ht hsum
    simp only [runLoop] at h
    cases hit : runIter g rng fuel nroll t pid k with
    | error e => simp only [hit] at h; cases h
    | ok r1 =>
      obtain ⟨r, k1⟩ := r1
      simp only [hit] at h
      obtain ⟨f1, f2, f3, f4, f5⟩ := runIter_ok g rng fuel nroll t pid k r k1 hit
      obtain ⟨g1, g2, g3, g4, g5⟩ := ih r pid k1 t' k' h (f2 hm) (f3 hs)
        (f4.trans ht) (by rw [f5 ht hsum, f1])
      refine ⟨?_, g2, g3, g4, g5⟩
      rw [g1, f1]
      omega

theorem mkRootNode_invariants {S : Type} (s : S) (pid : ℤ) :
    VisitMono (mkRootNode s pid) ∧ AllNodesSig StructP (mkRootNode s pid) ∧
      (mkRootNode s pid).terminal = false ∧
      childVisitSum (mkRootNode s pid) = (mkRootNode s pid).n_visits := by
  refine ⟨?_, ?_, rfl, rfl⟩
  · intro q j n c hn hc
    rw [getNode_mkRootNode] at hc
    by_cases hq : q ++ [j] = []
    · cases (List.append_ne_nil_of_right_ne_nil q (by simp : ([j] : List ℕ) ≠ [])) hq
    · rw [if_neg hq] at hc; cases hc
  · intro q n hn
    rw [getNode_mkRootNode] at hn
    by_cases hq : q = []
    · rw [if_pos hq] at hn
      injection hn with hn
      subst hn
      exact ⟨fun hcon => rfl, rfl⟩
    · rw [if_neg hq] at hn; cases hn

/-- Master facts about a completed `run`: the returned root has been
visited exactly `n_tree_iterations` times, visit counts never increase
from parent to child, terminal nodes are childless, `actions` and
`children_nodes` have equal lengths everywhere, the root is non-terminal,
and its children's visit counts sum to the iteration count. -/
theorem run_ok {S : Type} (g : Game S) (rng : ℕ → ℕ) (fuel : ℕ) (state : S) (pid : ℤ)
    (n_tree_iterations n_rollout_simulations : ℕ) (root : MCTSNode S)
    (h : run g rng fuel state pid n_tree_iterations n_rollout_simulations = .ok root) :
    root.n_visits = n_tree_iterations ∧ VisitMono root ∧ AllNodesSig StructP root ∧
      root.terminal = false ∧ childVisitSum root = n_tree_iterations := by
  simp only [run] at h
  cases hloop : runLoop g rng fuel n_rollout_simulations n_tree_iterations
      (mkRootNode state pid) pid 0 with
  | error e => simp only [hloop] at h; cases h
  | ok r1 =>
    obtain ⟨r, k⟩ := r1
    simp only [hloop] at h
    injection h with h
    subst h
    obtain ⟨hm, hs, ht, hsum⟩ := mkRootNode_invariants state pid
    obtain ⟨g1, g2, g3, g4, g5⟩ := runLoop_ok g rng fuel n_rollout_simulations
      n_tree_iterations (mkRootNode state pid) pid 0 r k hloop hm hs ht hsum
    have hvis : r.n_visits = n_tree_iterations := by
      rw [g1]
      show (0 : ℕ) + n_tree_iterations = n_tree_iterations
      omega
    exact ⟨hvis, g2, g3, g4, by rw [g5, hvis]⟩

/-! ## Claim theorems -/

/-- C2: Backpropagation, starting at the evaluated node (addressed by the
path `P` from the root) and following parent links up to and including the
root — i.e. at every prefix of `P` — increments each visited node's
`visit_count` by exactly 1 and adds the evaluation value to its
`accumulated_value`, negated exactly at those nodes whose `player_to_move`
is player 1; every node addressed off that path is left entirely
unchanged. -/
theorem backprop_updates_path_only {S : Type} (v : ℚ) (t : MCTSNode S) (P : List ℕ)
    (hP : (getNode t P).isSome = true) :
    (∀ q, q <+: P → ∀ n, getNode t q = some n →
      (n.player_to_move = 0 ∨ n.player_to_move = 1) →
      ∃ m, getNode (backprop v t P) q = some m ∧
        m.n_visits = n.n_visits + 1 ∧
        m.accumulated_value = n.accumulated_value + (if n.player_to_move = 1 then -v else v) ∧
        m.state = n.state ∧ m.player_to_move = n.player_to_move ∧
        m.actions = n.actions ∧ m.terminal = n.terminal ∧
        m.terminal_reward = n.terminal_reward) ∧
    (∀ q, ¬ q <+: P → getNode (backprop v t P) q = getNode t q) := by
  constructor
  · intro q hq n hn h01
    obtain ⟨m, hm, hs, hp, hacc, hvis, hac, ht, htr, _⟩ :=
      getNode_backprop_on_path v P q t hq n hn
    refine ⟨m, hm, hvis, ?_, hs, hp, hac, ht, htr⟩
    rcases h01 with h0 | h1
    · rw [hacc, h0]
      norm_num
    · rw [hacc, h1]
      norm_num
      exact sub_eq_add_neg _ _
  · intro q hq
    exact getNode_backprop_off_path v P q t hq

/-- A concrete two-node tree for exercising `backprop`: player 0 to move
at the root, player 1 at its single child. -/
def twoNodeTree : MCTSNode Unit :=
  .mk () 0 5 3 [4] [.mk () 1 2 1 [] [] false 0] false 0

/-- Witness for C2 at a concrete tree, path and value. -/
theorem backprop_updates_path_only_witness :
    (getNode twoNodeTree [0]).isSome = true ∧
    ((∀ q, q <+: [0] → ∀ n, getNode twoNodeTree q = some n →
      (n.player_to_move = 0 ∨ n.player_to_move = 1) →
      ∃ m, getNode (backprop 7 twoNodeTree [0]) q = some m ∧
        m.n_visits = n.n_visits + 1 ∧
        m.accumulated_value = n.accumulated_value + (if n.player_to_move = 1 then -(7 : ℚ) else 7) ∧
        m.state = n.state ∧ m.player_to_move = n.player_to_move ∧
        m.actions = n.actions ∧ m.terminal = n.terminal ∧
        m.terminal_reward = n.terminal_reward) ∧
    (∀ q, ¬ q <+: [0] → getNode (backprop 7 twoNodeTree [0]) q = getNode twoNodeTree q)) := by
  have hP : (getNode twoNodeTree [0]).isSome = true := by decide
  exact ⟨hP, backprop_updates_path_only 7 twoNodeTree [0] hP⟩

/-- C3: after any completed `search` (`run`) with iteration budget `N`,
the returned root has `visit_count = N`, and every non-root node of the
returned tree has `visit_count` at most its parent's (`VisitMono`). -/
theorem search_visit_invariants {S : Type} (g : Game S) (rng : ℕ → ℕ) (fuel : ℕ)
    (state : S) (pid : ℤ) (N nroll : ℕ) (root : MCTSNode S)
    (h : run g rng fuel state pid N nroll = .ok root) :
    root.n_visits = N ∧ VisitMono root := by
  obtain ⟨h1, h2, _, _, _⟩ := run_ok g rng fuel state pid N nroll root h
  exact ⟨h1, h2⟩

/-- A trivial one-action game on the unit state: the single action `0`
always ends the game immediately with reward `0`. -/
def unitGame : Game Unit :=
  ⟨fun _ _ => [0], fun _ _ _ => .ok ((), 0, true)⟩

/-- The tree produced by two iterations of `run` on `unitGame`. -/
def unitGameRoot2 : MCTSNode Unit :=
  .mk () 0 0 2 [0] [.mk () 1 0 2 [] [] true 0] false 0

/-- Witness for C3: a concrete two-iteration search on `unitGame`. -/
theorem search_visit_invariants_witness :
    run unitGame (fun _ => 0) 9 () 0 2 1 = .ok unitGameRoot2 ∧
    unitGameRoot2.n_visits = 2 ∧ VisitMono unitGameRoot2 := by
  have hrun : run unitGame (fun _ => 0) 9 () 0 2 1 = .ok unitGameRoot2 := by
    with_unfolding_all rfl
  exact ⟨hrun, search_visit_invariants unitGame (fun _ => 0) 9 () 0 2 1 unitGameRoot2 hrun⟩

/-- C4: terminal nodes are never expanded and never rolled out.
Part 1: in any tree returned by a completed `run`, every node created
with `terminal = true` has no children.  Part 2: when selection stops at
a terminal node, the iteration reduces to pure backpropagation of exactly
that node's stored `terminal_reward` (no expansion, no rollout call).
Part 3: when the freshly expanded child chosen for evaluation is
terminal, the backpropagated value is exactly that child's stored
`terminal_reward` and `rollout` is never invoked. -/
theorem terminal_nodes_never_expanded_or_rolled_out {S : Type} (g : Game S) (rng : ℕ → ℕ)
    (fuel : ℕ) (state : S) (pid : ℤ) (N nroll : ℕ) (root : MCTSNode S)
    (h : run g rng fuel state pid N nroll = .ok root) :
    (∀ q n, getNode root q = some n → n.terminal = true → n.children_nodes = []) ∧
    (∀ (fuel' : ℕ) (t : MCTSNode S) (pid0 : ℤ) (k : ℕ) (path : List ℕ) (leaf : MCTSNode S)
      (pid1 : ℤ) (k1 : ℕ), selectPath rng fuel' t pid0 k = .ok (path, leaf, pid1, k1) →
      leaf.terminal = true →
      runIter g rng fuel' nroll t pid0 k = .ok (backprop leaf.terminal_reward t path, k1)) ∧
    (∀ (fuel' : ℕ) (t : MCTSNode S) (pid0 : ℤ) (k : ℕ) (path : List ℕ) (leaf : MCTSNode S)
      (pid1 : ℤ) (k1 : ℕ) (transitions : List (S × ℚ × Bool)) (c0 : MCTSNode S)
      (cs : List (MCTSNode S)),
      selectPath rng fuel' t pid0 k = .ok (path, leaf, pid1, k1) →
      leaf.terminal = false →
      mapExcept (fun a => g.make_transition pid1 a leaf.state)
        (g.get_possible_actions pid1 leaf.state) = .ok transitions →
      transitions.map (mkChild pid1) = c0 :: cs →
      ((c0 :: cs).getD (rng k1 % (c0 :: cs).length) c0).terminal = true →
      runIter g rng fuel' nroll t pid0 k = .ok
        (backprop ((c0 :: cs).getD (rng k1 % (c0 :: cs).length) c0).terminal_reward
          (expandAt (g.get_possible_actions pid1 leaf.state) (c0 :: cs) t path)
          (path ++ [rng k1 % (c0 :: cs).length]), k1 + 1)) := by
  refine ⟨?_, ?_, ?_⟩
  · intro q n hn hterm
    obtain ⟨_, _, hsig, _, _⟩ := run_ok g rng fuel state pid N nroll root h
    have := (hsig q n hn).1 hterm
    exact List.eq_nil_of_length_eq_zero this
  · intro fuel' t pid0 k path leaf pid1 k1 hsel hterm
    simp only [runIter, hsel, if_pos hterm]
  · intro fuel' t pid0 k path leaf pid1 k1 transitions c0 cs hsel hterm hmapE hmap hct
    have hterm2 : ¬ leaf.terminal = true := by rw [hterm]; simp
    simp only [runIter, hsel, if_neg hterm2, hmapE, hmap, if_pos hct]

/-- The tree produced by one iteration of `run` on `unitGame`. -/
def unitGameRoot1 : MCTSNode Unit :=
  .mk () 0 0 1 [0] [.mk () 1 0 1 [] [] true 0] false 0

/-- Witness for C4: a concrete one-iteration search on `unitGame`, whose
single child is terminal with empty children. -/
theorem terminal_nodes_never_expanded_witness :
    run unitGame (fun _ => 0) 9 () 0 1 1 = .ok unitGameRoot1 ∧
    (∀ q n, getNode unitGameRoot1 q = some n → n.terminal = true →
      n.children_nodes = []) := by
  have hrun : run unitGame (fun _ => 0) 9 () 0 1 1 = .ok unitGameRoot1 := by
    with_unfolding_all rfl
  exact ⟨hrun,
    (terminal_nodes_never_expanded_or_rolled_out unitGame (fun _ => 0) 9 () 0 1 1
      unitGameRoot1 hrun).1⟩

theorem argminAux_spec : ∀ (xs : List ℚ) (best : ℚ) (bi i : ℕ),
    (argminAux best bi i xs = bi ∧ ∀ x ∈ xs, best ≤ x) ∨
    (∃ j, ∃ hj : j < xs.length, argminAux best bi i xs = i + j ∧
      xs.get ⟨j, hj⟩ ≤ best ∧ ∀ x ∈ xs, xs.get ⟨j, hj⟩ ≤ x) := by
  intro xs
  induction xs with
  | nil =>
    intro best bi i
    left
    exact ⟨rfl, fun x hx => absurd hx (List.not_mem_nil x)⟩
  | cons x xs ih =>
    intro best bi i
    by_cases hx : x < best
    · rcases ih x i (i + 1) with ⟨hres, hall⟩ | ⟨j, hj, hres, hle, hall⟩
      · right
        refine ⟨0, Nat.succ_pos _, ?_, le_of_lt hx, ?_⟩
        · show argminAux best bi i (x :: xs) = i + 0
          rw [argminAux, if_pos hx, hres, Nat.add_zero]
        · intro y hy
          rcases List.mem_cons.mp hy with rfl | hy
          · exact le_refl _
          · exact hall y hy
      · right
        refine ⟨j + 1, Nat.succ_lt_succ hj, ?_, le_trans hle (le_of_lt hx), ?_⟩
        · show argminAux best bi i (x :: xs) = i + (j + 1)
          rw [argminAux, if_pos hx, hres]
          omega
        · intro y hy
          rcases List.mem_cons.mp hy with rfl | hy
          · exact hle
          · exact hall y hy
    · push_neg at hx
      rcases ih best bi (i + 1) with ⟨hres, hall⟩ | ⟨j, hj, hres, hle, hall⟩
      · left
        refine ⟨?_, ?_⟩
        · show argminAux best bi i (x :: xs) = bi
          rw [argminAux, if_neg (not_lt.mpr hx), hres]
        · intro y hy
          rcases List.mem_cons.mp hy with rfl | hy
          · exact hx
          · exact hall y hy
      · right
        refine ⟨j + 1, Nat.succ_lt_succ hj, ?_, hle, ?_⟩
        · show argminAux best bi i (x :: xs) = i + (j + 1)
          rw [argminAux, if_neg (not_lt.mpr hx), hres]
          omega
        · intro y hy
          rcases List.mem_cons.mp hy with rfl | hy
          · exact le_trans hle hx
          · exact hall y hy

theorem argminIdx_spec (l : List ℚ) (r : ℕ) (h : argminIdx l = some r) :
    ∃ hr : r < l.length, ∀ (j : ℕ) (hj : j < l.length),
      l.get ⟨r, hr⟩ ≤ l.get ⟨j, hj⟩ := by
  cases l with
  | nil => cases h
  | cons x xs =>
    simp only [argminIdx] at h
    injection h with h
    subst h
    rcases argminAux_spec xs x 0 1 with ⟨hres, hall⟩ | ⟨j, hj, hres, hle, hall⟩
    · rw [hres]
      refine ⟨Nat.succ_pos _, ?_⟩
      intro j hj
      cases j with
      | zero => exact le_refl _
      | succ j' =>
        show x ≤ xs.get ⟨j', Nat.lt_of_succ_lt_succ hj⟩
        exact hall _ (List.get_mem xs _ _)
    · rw [hres]
      have hr : 1 + j < (x :: xs).length := by
        simp only [List.length_cons]
        omega
      refine ⟨hr, ?_⟩
      have hget : (x :: xs).get ⟨1 + j, hr⟩ = xs.get ⟨j, hj⟩ := by
        have : 1 + j = j + 1 := Nat.add_comm 1 j
        simp only [this]
        rfl
      rw [hget]
      intro j0 hj0
      cases j0 with
      | zero => exact hle
      | succ j0' =>
        show _ ≤ xs.get ⟨j0', Nat.lt_of_succ_lt_succ hj0⟩
        exact hall _ (List.get_mem xs _ _)

theorem length_le_sum_of_pos {α : Type} (m : α → ℕ) :
    ∀ (l : List α), (∀ x ∈ l, 1 ≤ m x) → l.length ≤ (l.map m).sum := by
  intro l
  induction l with
  | nil => intro _; exact le_refl _
  | cons x xs ih =>
    intro h
    have h1 := h x (List.mem_cons_self x xs)
    have h2 := ih (fun y hy => h y (List.mem_cons_of_mem x hy))
    show xs.length + 1 ≤ m x + (xs.map m).sum
    omega

theorem scores_mapExcept_error {S : Type} (l : List (MCTSNode S))
    (hz : ∃ c ∈ l, c.n_visits = 0) :
    mapExcept (fun c => if c.n_visits = 0
      then Except.error "ZeroDivisionError: float division by zero"
      else Except.ok (c.accumulated_value / (c.n_visits : ℚ))) l =
    .error "ZeroDivisionError: float division by zero" := by
  induction l with
  | nil => obtain ⟨c, hc, _⟩ := hz; cases hc
  | cons x xs ih =>
    by_cases hx : x.n_visits = 0
    · simp only [mapExcept, if_pos hx]
    · obtain ⟨c, hc, hcz⟩ := hz
      rcases List.mem_cons.mp hc with rfl | hc
      · exact absurd hcz hx
      · simp only [mapExcept, if_neg hx, ih ⟨c, hc, hcz⟩]

theorem scores_mapExcept_ok {S : Type} (l : List (MCTSNode S))
    (hz : ∀ c ∈ l, c.n_visits ≠ 0) :
    mapExcept (fun c => if c.n_visits = 0
      then Except.error "ZeroDivisionError: float division by zero"
      else Except.ok (c.accumulated_value / (c.n_visits : ℚ))) l =
    .ok (l.map (fun c => c.accumulated_value / (c.n_visits : ℚ))) := by
  induction l with
  | nil => rfl
  | cons x xs ih =>
    simp only [mapExcept, if_neg (hz x (List.mem_cons_self x xs)),
      ih (fun c hc => hz c (List.mem_cons_of_mem x hc)), List.map_cons]

/-- C6: the division in `get_best_action`'s final action choice is
unguarded.  Part 1: whenever the iteration budget is smaller than the
number of the root's children (its legal actions), some root child is
left with `visit_count = 0` after the search.  Part 2: whenever any root
child has `visit_count = 0`, `get_best_action` fails with Python's
`ZeroDivisionError` instead of returning an action. -/
theorem best_action_zero_visit_division_error {S : Type} (g : Game S) (rng : ℕ → ℕ)
    (fuel : ℕ) (state : S) (pid : ℤ) (N nroll : ℕ) (root : MCTSNode S)
    (h : run g rng fuel state pid N nroll = .ok root) :
    (N < root.children_nodes.length → ∃ c ∈ root.children_nodes, c.n_visits = 0) ∧
    ((∃ c ∈ root.children_nodes, c.n_visits = 0) →
      get_best_action g rng fuel state pid N nroll =
        .error "ZeroDivisionError: float division by zero") := by
  constructor
  · intro hlen
    by_contra hcon
    push_neg at hcon
    have hsum : childVisitSum root = N := (run_ok g rng fuel state pid N nroll root h).2.2.2.2
    have hpos : ∀ c ∈ root.children_nodes, 1 ≤ c.n_visits := by
      intro c hc
      have := hcon c hc
      omega
    have := length_le_sum_of_pos MCTSNode.n_visits root.children_nodes hpos
    rw [childVisitSum] at hsum
    omega
  · intro hz
    simp only [get_best_action, h, scores_mapExcept_error root.children_nodes hz]

/-- A trivial two-action game on the unit state: both actions end the
game immediately, action `0` with reward `2`, action `1` with reward
`3`. -/
def twoActionGame : Game Unit :=
  ⟨fun _ _ => [0, 1], fun _ a _ => .ok ((), if a = 0 then 2 else 3, true)⟩

/-- The tree produced by one iteration of `run` on `twoActionGame` with
the all-zero oracle: only the first child is visited. -/
def twoActionRoot1 : MCTSNode Unit :=
  .mk () 0 2 1 [0, 1] [.mk () 1 (-2) 1 [] [] true 2, .mk () 1 0 0 [] [] true 3] false 0

/-- Witness for C6: budget 1 against two legal actions leaves the second
root child unvisited, and `get_best_action` fails with the division
error. -/
theorem best_action_zero_visit_witness :
    run twoActionGame (fun _ => 0) 9 () 0 1 1 = .ok twoActionRoot1 ∧
    (1 < twoActionRoot1.children_nodes.length →
      ∃ c ∈ twoActionRoot1.children_nodes, c.n_visits = 0) ∧
    ((∃ c ∈ twoActionRoot1.children_nodes, c.n_visits = 0) →
      get_best_action twoActionGame (fun _ => 0) 9 () 0 1 1 =
        .error "ZeroDivisionError: float division by zero") := by
  have hrun : run twoActionGame (fun _ => 0) 9 () 0 1 1 = .ok twoActionRoot1 := by
    with_unfolding_all rfl
  exact ⟨hrun,
    best_action_zero_visit_division_error twoActionGame (fun _ => 0) 9 () 0 1 1
      twoActionRoot1 hrun⟩

/-- C5 (amended): `get_best_action` runs the search and returns the action
attached to a root child attaining the minimal
`accumulated_value / visit_count` ratio — provided every root child was
visited at least once; a zero-visit child instead makes the final
division fail (see the division-error theorem). -/
theorem best_action_minimizes_mean_value {S : Type} (g : Game S) (rng : ℕ → ℕ)
    (fuel : ℕ) (state : S) (pid : ℤ) (N nroll : ℕ) (root : MCTSNode S)
    (h : run g rng fuel state pid N nroll = .ok root)
    (hne : root.children_nodes ≠ [])
    (hvis : ∀ c ∈ root.children_nodes, c.n_visits ≠ 0) :
    ∃ (i : ℕ) (hi : i < root.children_nodes.length) (ha : i < root.actions.length),
      get_best_action g rng fuel state pid N nroll = .ok (root.actions.get ⟨i, ha⟩) ∧
      ∀ (j : ℕ) (hj : j < root.children_nodes.length),
        (root.children_nodes.get ⟨i, hi⟩).accumulated_value /
          ((root.children_nodes.get ⟨i, hi⟩).n_visits : ℚ) ≤
        (root.children_nodes.get ⟨j, hj⟩).accumulated_value /
          ((root.children_nodes.get ⟨j, hj⟩).n_visits : ℚ) := by
  have hok := scores_mapExcept_ok root.children_nodes hvis
  have hsne : root.children_nodes.map (fun c => c.accumulated_value / (c.n_visits : ℚ)) ≠ [] :=
    fun hcon => hne (List.map_eq_nil_iff.mp hcon)
  obtain ⟨x, xs, hxs⟩ := List.exists_cons_of_ne_nil hsne
  have hargmin : argminIdx (root.children_nodes.map
      (fun c => c.accumulated_value / (c.n_visits : ℚ))) = some (argminAux x 0 1 xs) := by
    rw [hxs]; rfl
  obtain ⟨hr, hmin⟩ := argminIdx_spec _ _ hargmin
  have hlenmap : (root.children_nodes.map
      (fun c => c.accumulated_value / (c.n_visits : ℚ))).length =
      root.children_nodes.length := List.length_map _ _
  have hrch : argminAux x 0 1 xs < root.children_nodes.length := by omega
  have hactslen : root.actions.length = root.children_nodes.length :=
    ((run_ok g rng fuel state pid N nroll root h).2.2.1 [] root (getNode_nil root)).2
  have hra : argminAux x 0 1 xs < root.actions.length := by omega
  refine ⟨argminAux x 0 1 xs, hrch, hra, ?_, ?_⟩
  · simp only [get_best_action, h, hok, hargmin, List.get?_eq_getElem?,
      List.getElem?_eq_getElem hra]
    simp [List.get_eq_getElem]
  · intro j hj
    have hjs : j < (root.children_nodes.map
        (fun c => c.accumulated_value / (c.n_visits : ℚ))).length := by omega
    have hle := hmin j hjs
    rw [List.get_eq_getElem, List.get_eq_getElem] at hle
    simp only [List.getElem_map] at hle
    rw [List.get_eq_getElem, List.get_eq_getElem]
    exact hle

/-- Witness for C5 (amended): a two-iteration search on `unitGame` in
which the single root child is visited twice. -/
theorem best_action_minimizes_mean_value_witness :
    run unitGame (fun _ => 0) 9 () 0 2 1 = .ok unitGameRoot2 ∧
    unitGameRoot2.children_nodes ≠ [] ∧
    (∀ c ∈ unitGameRoot2.children_nodes, c.n_visits ≠ 0) ∧
    (∃ (i : ℕ) (hi : i < unitGameRoot2.children_nodes.length)
        (ha : i < unitGameRoot2.actions.length),
      get_best_action unitGame (fun _ => 0) 9 () 0 2 1 =
        .ok (unitGameRoot2.actions.get ⟨i, ha⟩) ∧
      ∀ (j : ℕ) (hj : j < unitGameRoot2.children_nodes.length),
        (unitGameRoot2.children_nodes.get ⟨i, hi⟩).accumulated_value /
          ((unitGameRoot2.children_nodes.get ⟨i, hi⟩).n_visits : ℚ) ≤
        (unitGameRoot2.children_nodes.get ⟨j, hj⟩).accumulated_value /
          ((unitGameRoot2.children_nodes.get ⟨j, hj⟩).n_visits : ℚ)) := by
  have hrun : run unitGame (fun _ => 0) 9 () 0 2 1 = .ok unitGameRoot2 := by
    with_unfolding_all rfl
  have hne : unitGameRoot2.children_nodes ≠ [] := by
    simp [unitGameRoot2]
  have hvis : ∀ c ∈ unitGameRoot2.children_nodes, c.n_visits ≠ 0 := by
    intro c hc
    simp only [unitGameRoot2, MCTSNode.children_nodes_mk, List.mem_singleton] at hc
    subst hc
    decide
  exact ⟨hrun, hne, hvis,
    best_action_minimizes_mean_value unitGame (fun _ => 0) 9 () 0 2 1 unitGameRoot2
      hrun hne hvis⟩

/-- A Tic-Tac-Toe position with exactly two empty cells (indices 6 and 7),
player 0 to move; playing cell 6 wins immediately, playing cell 7 leaves
the game open. -/
def nearFullBoard : TTTBoard := [[1, 2, 1], [2, 1, 2], [0, 0, 2]]

/-- Counterexample for C5 as stated: on a state with two legal actions
and a positive iteration budget of 1, `get_best_action` raises a
`ZeroDivisionError` instead of returning a minimal-ratio action, because
the unvisited second child divides by zero. -/
theorem best_action_counterexample_zero_division :
    TicTacToe.get_possible_actions 0 nearFullBoard = [6, 7] ∧
    get_best_action TicTacToe.game (fun _ => 0) 9 nearFullBoard 0 1 1 =
      .error "ZeroDivisionError: float division by zero" := by
  constructor
  · rfl
  · with_unfolding_all rfl

/-- C7 (amended): calling `get_best_action` (`pick_best_action`) on a
state with no legal actions raises an error rather than silently indexing
into an empty result — but the error is numpy's generic `ValueError` from
`np.random.choice` over the empty children list built by the first
expansion, not a descriptive "no actions available" condition. -/
theorem no_actions_raises {S : Type} (g : Game S) (rng : ℕ → ℕ) (fuel : ℕ) (state : S)
    (pid : ℤ) (N nroll : ℕ) (hfuel : 0 < fuel) (hN : 0 < N)
    (hempty : g.get_possible_actions pid state = []) :
    run g rng fuel state pid N nroll =
      .error "a cannot be empty unless no samples are taken" ∧
    get_best_action g rng fuel state pid N nroll =
      .error "a cannot be empty unless no samples are taken" := by
  obtain ⟨f, rfl⟩ : ∃ f, fuel = f + 1 := ⟨fuel - 1, by omega⟩
  obtain ⟨n, rfl⟩ : ∃ n, N = n + 1 := ⟨N - 1, by omega⟩
  have hsel : selectPath rng (f + 1) (MCTSNode.mk state pid 0 0 [] [] false 0) pid 0 =
      .ok ([], MCTSNode.mk state pid 0 0 [] [] false 0, pid, 0) := by
    simp [selectPath]
  have hiter : runIter g rng (f + 1) nroll (mkRootNode state pid) pid 0 =
      .error "a cannot be empty unless no samples are taken" := by
    simp [runIter, mkRootNode, hsel, hempty, mapExcept]
  have hloop : runLoop g rng (f + 1) nroll (n + 1) (mkRootNode state pid) pid 0 =
      .error "a cannot be empty unless no samples are taken" := by
    simp only [runLoop, hiter]
  have hrun : run g rng (f + 1) state pid (n + 1) nroll =
      .error "a cannot be empty unless no samples are taken" := by
    simp only [run, hloop]
  exact ⟨hrun, by simp only [get_best_action, hrun]⟩

/-- A trivial game on the unit state that never offers a legal action. -/
def emptyGame : Game Unit :=
  ⟨fun _ _ => [], fun _ _ _ => .ok ((), 0, true)⟩

/-- Witness for C7 (amended) on `emptyGame`. -/
theorem no_actions_raises_witness :
    (0 : ℕ) < 5 ∧ (0 : ℕ) < 1 ∧ emptyGame.get_possible_actions 0 () = [] ∧
    (run emptyGame (fun _ => 0) 5 () 0 1 1 =
      .error "a cannot be empty unless no samples are taken" ∧
    get_best_action emptyGame (fun _ => 0) 5 () 0 1 1 =
      .error "a cannot be empty unless no samples are taken") :=
  ⟨by decide, by decide, rfl,
    no_actions_raises emptyGame (fun _ => 0) 5 () 0 1 1 (by decide) (by decide) rfl⟩

/-- Counterexample for C7 as stated: on a full Tic-Tac-Toe board (no
legal actions) the raised error is numpy's generic
`"a cannot be empty unless no samples are taken"` `ValueError`, not an
explicit "no actions available" condition. -/
theorem no_actions_raises_counterexample :
    TicTacToe.get_possible_actions 0 [[1, 2, 1], [2, 1, 2], [2, 1, 2]] = [] ∧
    get_best_action TicTacToe.game (fun _ => 0) 9 [[1, 2, 1], [2, 1, 2], [2, 1, 2]] 0 1 1 =
      .error "a cannot be empty unless no samples are taken" := by
  exact ⟨rfl, by with_unfolding_all rfl⟩

/-- C8: if the game reports no legal actions for the player to move
during a rollout, the engine fails fast with the descriptive
`AssertionError` of `MCTS.py` line 160 — both the single playout loop and
the full averaged `rollout` propagate exactly that error, producing no
reward value (no draw substituted, no default). -/
theorem rollout_no_actions_fails_fast {S : Type} (g : Game S) (rng : ℕ → ℕ)
    (fuel nroll : ℕ) (node : MCTSNode S) (k : ℕ) (hfuel : 0 < fuel) (hn : 0 < nroll)
    (hempty : g.get_possible_actions node.player_to_move node.state = []) :
    rolloutWhile g rng fuel node.player_to_move node.state k =
      .error "Rollout: got no possible action in non-terminal state" ∧
    rollout g rng fuel nroll node k =
      .error "Rollout: got no possible action in non-terminal state" := by
  obtain ⟨f, rfl⟩ : ∃ f, fuel = f + 1 := ⟨fuel - 1, by omega⟩
  obtain ⟨m, rfl⟩ : ∃ m, nroll = m + 1 := ⟨nroll - 1, by omega⟩
  have hwhile : rolloutWhile g rng (f + 1) node.player_to_move node.state k =
      .error "Rollout: got no possible action in non-terminal state" := by
    simp only [rolloutWhile, hempty]
  refine ⟨hwhile, ?_⟩
  simp only [rollout, rolloutFor, hwhile]

/-- Witness for C8 on `emptyGame`. -/
theorem rollout_no_actions_witness :
    (0 : ℕ) < 5 ∧ (0 : ℕ) < 3 ∧
    emptyGame.get_possible_actions (mkRootNode () 0).player_to_move
      (mkRootNode () 0).state = [] ∧
    (rolloutWhile emptyGame (fun _ => 0) 5 (mkRootNode () 0).player_to_move
      (mkRootNode () 0).state 0 =
        .error "Rollout: got no possible action in non-terminal state" ∧
    rollout emptyGame (fun _ => 0) 5 3 (mkRootNode () 0) 0 =
      .error "Rollout: got no possible action in non-terminal state") :=
  ⟨by decide, by decide, rfl,
    rollout_no_actions_fails_fast emptyGame (fun _ => 0) 5 3 (mkRootNode () 0) 0
      (by decide) (by decide) rfl⟩

/-- C9: `TicTacToe.make_transition` raises an identifiable `ValueError`
for an action index outside the 0–8 range and for an action targeting an
already-occupied cell; on those paths it returns no new state (the input
board — passed by value in this pure model, validated before Python's
deep copy — is untouched). -/
theorem make_transition_invalid_action_errors (state : TTTBoard) (player_idx : ℤ)
    (action_idx : ℕ) :
    (8 < action_idx →
      TicTacToe.make_transition player_idx action_idx state =
        .error ("Invalid action index: " ++ toString action_idx ++
          ". Must be between 0 and 8.")) ∧
    (action_idx ≤ 8 → TicTacToe.getCell state (action_idx / 3) (action_idx % 3) ≠ 0 →
      TicTacToe.make_transition player_idx action_idx state =
        .error ("Invalid action: Cell (" ++ toString (action_idx / 3) ++ ", " ++
          toString (action_idx % 3) ++ ") is already occupied.")) := by
  constructor
  · intro hrange
    simp only [TicTacToe.make_transition]
    rw [if_pos (by omega : ¬ action_idx ≤ 8)]
  · intro hrange hocc
    simp only [TicTacToe.make_transition]
    rw [if_neg (fun hc => hc hrange), if_pos hocc]

/-- Witness for C9: an out-of-range index and an occupied cell on a
concrete board. -/
theorem make_transition_invalid_action_witness :
    (8 < 9 ∧ TicTacToe.make_transition 0 9 [[1, 0, 0], [0, 0, 0], [0, 0, 0]] =
      .error ("Invalid action index: " ++ toString (9 : ℕ) ++
        ". Must be between 0 and 8.")) ∧
    ((0 : ℕ) ≤ 8 ∧ TicTacToe.getCell [[1, 0, 0], [0, 0, 0], [0, 0, 0]] 0 0 ≠ 0 ∧
      TicTacToe.make_transition 1 0 [[1, 0, 0], [0, 0, 0], [0, 0, 0]] =
        .error ("Invalid action: Cell (" ++ toString ((0 : ℕ) / 3) ++ ", " ++
          toString ((0 : ℕ) % 3) ++ ") is already occupied.")) := by
  refine ⟨⟨by decide, (make_transition_invalid_action_errors _ 0 9).1 (by decide)⟩,
    ⟨by decide, by decide,
      (make_transition_invalid_action_errors _ 1 0).2 (by decide) (by decide)⟩⟩

/-- C10: engine construction (`TwoPlayerMCTS.__init__`) with a strictly
negative exploration coefficient raises `ValueError` (the engine is not
constructed), while a coefficient of exactly 0 constructs the engine and
emits the warning `'exploration_coef is set to 0'` rather than an
error. -/
theorem construct_coefficient_validation :
    (∀ exploration_coef : ℚ, exploration_coef < 0 →
      TwoPlayerMCTS.construct exploration_coef =
        .error "exploration_coef must be greater than 0") ∧
    TwoPlayerMCTS.construct 0 = .ok (0, ["exploration_coef is set to 0"]) := by
  constructor
  · intro coef hneg
    simp only [TwoPlayerMCTS.construct, if_pos hneg]
  · simp only [TwoPlayerMCTS.construct]
    rw [if_neg (by norm_num : ¬ (0 : ℚ) < 0),
      if_pos (by norm_num : |(0 : ℚ)| ≤ 1 / 100000000)]

/-- Witness for C10 at the concrete coefficients `-1` and `0`. -/
theorem construct_coefficient_validation_witness :
    ((-1 : ℚ) < 0 ∧ TwoPlayerMCTS.construct (-1) =
      .error "exploration_coef must be greater than 0") ∧
    TwoPlayerMCTS.construct 0 = .ok (0, ["exploration_coef is set to 0"]) :=
  ⟨⟨by norm_num, construct_coefficient_validation.1 (-1) (by norm_num)⟩,
    construct_coefficient_validation.2⟩

/-- The full conclusion of the UCB-selection claim, for a parent node
with positive visits and at least one child: `select_child_node_ucb`
succeeds with a distribution `p` such that (1) every visited child is
scored `accumulated_value / n_visits - coef * sqrt(log(parent_visits) / n_visits)`
and every zero-visit child gets the `-inf` sentinel, (2) the best-index
set is exactly the set of indices attaining the minimum score, (3) `p` is
supported on exactly that set, and (4) `p` is uniform on it. -/
def UCBSelectionConcl {S : Type} (coef : ℝ) (node : MCTSNode S) : Prop :=
  ∃ p : PMF ℕ, select_child_node_ucb coef node = .ok p ∧
    (∀ (i : ℕ) (hi : i < node.children_nodes.length),
      (action_scores coef node).getD i ⊥ =
        (if (node.children_nodes.get ⟨i, hi⟩).n_visits ≠ 0 then
          ((((node.children_nodes.get ⟨i, hi⟩).accumulated_value : ℝ) /
              ((node.children_nodes.get ⟨i, hi⟩).n_visits : ℝ) -
            coef * Real.sqrt (Real.log (node.n_visits : ℝ) /
              ((node.children_nodes.get ⟨i, hi⟩).n_visits : ℝ)) : ℝ) : EReal)
        else ⊥)) ∧
    ((best_indices coef node : Set ℕ) =
      {i : ℕ | i < node.children_nodes.length ∧
        ∀ (j : ℕ), j < node.children_nodes.length →
          (action_scores coef node).getD i ⊥ ≤ (action_scores coef node).getD j ⊥}) ∧
    p.support = (best_indices coef node : Set ℕ) ∧
    (∀ i ∈ best_indices coef node, p i = ((best_indices coef node).card : ENNReal)⁻¹)

theorem action_scores_getD {S : Type} (coef : ℝ) (node : MCTSNode S) (i : ℕ)
    (hi : i < node.children_nodes.length) :
    (action_scores coef node).getD i ⊥ =
      ucb_score coef node.n_visits (node.children_nodes.get ⟨i, hi⟩) := by
  rw [List.getD_eq_getElem?_getD, action_scores, List.getElem?_map,
    List.getElem?_eq_getElem hi]
  rfl

theorem mem_scores_of_lt {S : Type} (coef : ℝ) (node : MCTSNode S) (j : ℕ)
    (hj : j < node.children_nodes.length) :
    (action_scores coef node).getD j ⊥ ∈ action_scores coef node := by
  have hj2 : j < (action_scores coef node).length := by
    rw [action_scores, List.length_map]; exact hj
  rw [List.getD_eq_getElem?_getD, List.getElem?_eq_getElem hj2]
  exact List.getElem_mem hj2

/-- C1: on a node with `visit_count > 0` and at least one child, UCB
selection scores visited children by
`exploitation - coef * sqrt(ln(parent_visits) / child_visits)`, gives
zero-visit children the unboundedly attractive `-inf` sentinel, and draws
uniformly at random among the indices attaining the minimum score. -/
theorem ucb_selection_spec {S : Type} (coef : ℝ) (node : MCTSNode S)
    (h1 : 0 < node.n_visits) (h2 : node.children_nodes ≠ []) :
    UCBSelectionConcl coef node := by
  classical
  refine ⟨PMF.uniformOfFinset (best_indices coef node)
    (best_indices_nonempty coef node h2), ?_, ?_, ?_, ?_, ?_⟩
  · simp only [select_child_node_ucb, if_neg (by omega : ¬ node.n_visits ≤ 0)]
    split
    · rename_i heq
      exact absurd heq h2
    · rfl
  · intro i hi
    rw [action_scores_getD coef node i hi, ucb_score]
  · ext i
    simp only [best_indices, Finset.coe_filter, Finset.mem_range, Set.mem_setOf_eq]
    have hlen : (action_scores coef node).length = node.children_nodes.length := by
      rw [action_scores, List.length_map]
    constructor
    · rintro ⟨hi, heq⟩
      refine ⟨by omega, ?_⟩
      intro j hj
      rw [heq]
      exact foldr_min_le _ (mem_scores_of_lt coef node j hj)
    · rintro ⟨hi, hmin⟩
      refine ⟨by omega, ?_⟩
      have hle1 : scores_min (action_scores coef node) ≤ (action_scores coef node).getD i ⊥ :=
        foldr_min_le _ (mem_scores_of_lt coef node i hi)
      have hne : action_scores coef node ≠ [] := by
        rw [action_scores]
        intro hcon
        exact h2 (List.map_eq_nil_iff.mp hcon)
      have hmem := foldr_min_mem _ hne
      obtain ⟨j0, hj0⟩ := List.get_of_mem hmem
      have hj0lt : (j0 : ℕ) < node.children_nodes.length := by
        have := j0.isLt
        omega
      have hgetD : (action_scores coef node).getD (j0 : ℕ) ⊥ =
          scores_min (action_scores coef node) := by
        rw [List.getD_eq_getElem?_getD, List.getElem?_eq_getElem j0.isLt]
        show (action_scores coef node).get j0 = _
        rw [hj0]
        rfl
      have hle2 : (action_scores coef node).getD i ⊥ ≤ scores_min (action_scores coef node) := by
        rw [← hgetD]
        exact hmin (j0 : ℕ) hj0lt
      exact le_antisymm hle2 hle1
  · exact PMF.support_uniformOfFinset _
  · intro i hmem
    exact PMF.uniformOfFinset_apply_of_mem _ hmem

/-- A parent node (one visit) with a single unvisited child, for
exercising the UCB selection rule. -/
def ucbTestNode : MCTSNode Unit :=
  .mk () 0 0 1 [] [.mk () 1 0 0 [] [] false 0] false 0

/-- Witness for C1 at a concrete node with one unvisited child and
exploration coefficient 1. -/
theorem ucb_selection_spec_witness :
    0 < ucbTestNode.n_visits ∧ ucbTestNode.children_nodes ≠ [] ∧
    UCBSelectionConcl 1 ucbTestNode := by
  have h1 : 0 < ucbTestNode.n_visits := by decide
  have h2 : ucbTestNode.children_nodes ≠ [] := by simp [ucbTestNode]
  exact ⟨h1, h2, ucb_selection_spec 1 ucbTestNode h1 h2⟩
